import Mathlib

/-! Directory listing by size.

A shallow embedding of `main.go` of `krbreyn/largest`.

* The operating system is an explicit value `FS` answering `os.Stat` and `os.ReadDir`.
* Paths are lists of components; `filepath.Join dir name` appends one component.
* `uint64` totals are natural numbers reduced modulo `2^64`; `stat.Size()` is an `Int`
  (Go's `int64`) converted by `uint64`.
* Loops that the source bounds only by the shape of the file system take a fuel argument;
  the theorems show that the number of nodes of a finite tree is enough fuel.
* Finite directory trees are values of `Node`; `fsOf` turns a tree into the answers of the
  operating system for it. Symbolic links are not followed: a link is a node that is
  neither a regular file nor a directory.
* The goroutines of `getByLargest` are modelled twice. `getByLargest` takes every append
  to `entries` as one step and lets a `Schedule` choose the order in which the goroutines
  finish. `runSchedule` runs the statements of the goroutines one at a time, an append
  being a read of `entries` followed by an assignment, as the source has it.
* `sort.Slice`, `humanize.Bytes` and the integer syntax of the `flag` package belong to
  libraries: the first and the last are arguments, and the printed lines are given by the
  entries they are printed from.
-/

namespace Largest

/-! ## Operating system interface -/

/-- Errors reported by the system calls and by the program's own checks. -/
inductive Err where
  | notExist
  | permission
  | notDir
  | tooManyArguments
  | badFlag
  | help
  deriving DecidableEq, Repr

/-- A path, as the list of its components. -/
abbrev Path := List String

/-- The call `filepath.Join(dir, name)` for one component `name`. -/
def join (dir : Path) (name : String) : Path := dir ++ [name]

/-- The part of `os.FileInfo` the program reads: `IsDir()`, `Mode().IsRegular()`, `Size()`. -/
structure FileInfo where
  isDir : Bool
  isRegular : Bool
  size : Int
  deriving DecidableEq, Repr

/-- The part of `os.DirEntry` the program reads: `Name()`, `IsDir()`, `Info()`. -/
structure DirEntry where
  name : String
  isDir : Bool
  info : Except Err FileInfo

/-- The answers of the operating system: `os.Stat` and `os.ReadDir`. -/
structure FS where
  stat : Path → Except Err FileInfo
  readDir : Path → Except Err (List DirEntry)

/-- The conversion `uint64(x)` of an `int64`. -/
def uint64 (x : Int) : Nat := (x % 2 ^ 64).toNat

/-- The predicate `os.IsNotExist(err)`. -/
def isNotExist (e : Err) : Bool :=
  match e with
  | .notExist => true
  | _ => false

/-! ## The program -/

/-- The type `Entry` of `main.go`. -/
structure Entry where
  Name : String
  Size : Nat
  deriving DecidableEq, Repr

/-- The inner `for _, entry := range entries` loop of `getDirectorySizeIter`:
directories are pushed on the stack, regular files are added to the total, everything
else (and every entry whose `Info()` fails) is passed over. -/
def scanEntries (dir : Path) : List DirEntry → List Path → Nat → List Path × Nat
  | [], stack, total => (stack, total)
  | entry :: entries, stack, total =>
    let fullPath := join dir entry.name
    if entry.isDir then
      scanEntries dir entries (stack ++ [fullPath]) total
    else
      match entry.info with
      | .error _ => scanEntries dir entries stack total
      | .ok stat =>
        if stat.isRegular then
          scanEntries dir entries stack ((total + uint64 stat.size) % 2 ^ 64)
        else
          scanEntries dir entries stack total

/-- The loop `for len(stack) > 0` of `getDirectorySizeIter`. One unit of fuel is spent for
each directory popped; `none` means the fuel ran out before the stack was empty. -/
def sizeLoop (fs : FS) (fuel : Nat) (stack : List Path) (total : Nat) : Option Nat :=
  match stack.getLast? with
  | none => some total
  | some dir =>
    match fuel with
    | 0 => none
    | fuel + 1 =>
      let stack := stack.dropLast
      match fs.readDir dir with
      | .error _ => sizeLoop fs fuel stack total
      | .ok entries =>
        let r := scanEntries dir entries stack total
        sizeLoop fs fuel r.1 r.2

/-- The function `getDirectorySizeIter` of `main.go`. A root that is neither a directory
nor a regular file falls through to the loop, as in the source, where its listing
fails. -/
def getDirectorySizeIter (fs : FS) (fuel : Nat) (root : Path) : Option Nat :=
  match fs.stat root with
  | .error _ => some 0
  | .ok stat =>
    if !stat.isDir then
      if stat.isRegular then
        some (uint64 stat.size)
      else
        sizeLoop fs fuel [root] 0
    else
      sizeLoop fs fuel [root] 0

/-- A goroutine launched by `getByLargest` for one subdirectory and not yet finished:
the captured `file.Name()` and the path handed to `getDirectorySizeIter`. Each goroutine
captures the `file` of its own iteration (loop variables per iteration, Go 1.22). -/
structure Task where
  name : String
  path : Path

/-- The order in which the goroutines finish, which the source leaves to the Go
scheduler. `during` gives, for each iteration of the listing loop, the goroutines that
append their `Entry` before that iteration runs; `atWait` gives the ones that append
first once `wg.Wait()` is reached. A number `k` picks the unfinished goroutine at
position `k % n` among the `n` unfinished ones, in launch order. -/
structure Schedule where
  during : List (List Nat)
  atWait : List Nat

/-- The target of the listing: the working directory without positional arguments, the
argument when there is one, and `die` when there are more. -/
def resolveTarget (cwd : Except Err Path) (args : List Path) : Except Err Path :=
  match args with
  | [] => cwd
  | [target] => .ok target
  | _ => .error .tooManyArguments

/-- The loop of `case false` in `getByLargest`: every stat error is fatal, directories
are passed over, every other child is appended with `uint64(stat.Size())`. -/
def listFiles (fs : FS) (target : Path) : List DirEntry → List Entry → Except Err (List Entry)
  | [], entries => .ok entries
  | file :: files, entries =>
    match fs.stat (join target file.name) with
    | .error err => .error err
    | .ok stat =>
      if !stat.isDir then
        listFiles fs target files (entries ++ [⟨file.name, uint64 stat.size⟩])
      else
        listFiles fs target files entries

/-- The goroutines picked by the scheduler run to their end, one after the other: each
computes `getDirectorySizeIter` and appends its `Entry` under the mutex. -/
def finishTasks (fs : FS) (fuel : Nat) :
    List Nat → List Task → List Entry → Option (List Task × List Entry)
  | [], pending, entries => some (pending, entries)
  | k :: picks, pending, entries =>
    match pending[k % pending.length]? with
    | none => some (pending, entries)
    | some task =>
      match getDirectorySizeIter fs fuel task.path with
      | none => none
      | some size =>
        finishTasks fs fuel picks (pending.eraseIdx (k % pending.length))
          (entries ++ [⟨task.name, size⟩])

/-- The loop of `case true` in `getByLargest`, with every append taken as one atomic
step: a stat error is passed over when `os.IsNotExist` holds and fatal otherwise, a
non-directory is appended at once, a directory launches a goroutine. -/
def listAll (fs : FS) (fuel : Nat) (target : Path) :
    List DirEntry → List (List Nat) → List Task → List Entry →
      Option (Except Err (List Task × List Entry))
  | [], _, pending, entries => some (.ok (pending, entries))
  | file :: files, during, pending, entries =>
    match finishTasks fs fuel (during.headD []) pending entries with
    | none => none
    | some (pending, entries) =>
      match fs.stat (join target file.name) with
      | .error err =>
        if isNotExist err then
          listAll fs fuel target files during.tail pending entries
        else
          some (.error err)
      | .ok stat =>
        if !stat.isDir then
          listAll fs fuel target files during.tail pending
            (entries ++ [⟨file.name, uint64 stat.size⟩])
        else
          listAll fs fuel target files during.tail
            (pending ++ [⟨file.name, join target file.name⟩]) entries

/-- The call `wg.Wait()`: every goroutine still running finishes, first the ones the
scheduler picks, then the others in launch order. -/
def waitAll (fs : FS) (fuel : Nat) (picks : List Nat) (pending : List Task)
    (entries : List Entry) : Option (List Entry) :=
  match finishTasks fs fuel picks pending entries with
  | none => none
  | some (pending, entries) =>
    match finishTasks fs fuel (List.replicate pending.length 0) pending entries with
    | none => none
    | some (_, entries) => some entries

/-- The function `getByLargest` of `main.go`. The result is `none` when the fuel of a
traversal ran out, `some (.error err)` when the program called `die(err)`, and
`some (.ok entries)` when it returned. The flag `dir` and `flag.Args()` are arguments. -/
def getByLargest (fs : FS) (fuel : Nat) (sched : Schedule) (cwd : Except Err Path)
    (args : List Path) (dir : Bool) : Option (Except Err (List Entry)) :=
  match resolveTarget cwd args with
  | .error err => some (.error err)
  | .ok target =>
    match fs.readDir target with
    | .error err => some (.error err)
    | .ok files =>
      match dir with
      | false => some (listFiles fs target files [])
      | true =>
        match listAll fs fuel target files sched.during [] [] with
        | none => none
        | some (.error err) => some (.error err)
        | some (.ok (pending, entries)) =>
          match waitAll fs fuel sched.atWait pending entries with
          | none => none
          | some entries => some (.ok entries)

/-- The comparison handed to `sort.Slice`: `largest[i].Size > largest[j].Size`. -/
def sizeGreater (a b : Entry) : Bool := decide (a.Size > b.Size)

/-- The printing loop of `printByLargest`: it returns at the first index `i >= lines`. -/
def printLoop (lines : Int) : Nat → List Entry → List Entry
  | _, [] => []
  | i, l :: rest => if (i : Int) ≥ lines then [] else l :: printLoop lines (i + 1) rest

/-- The function `printByLargest` of `main.go`: the entries handed to `fmt.Printf`, in
order, one printed line each. `sort.Slice` of the Go library is the argument
`sortSlice`. -/
def printByLargest (sortSlice : (Entry → Entry → Bool) → List Entry → List Entry)
    (lines : Int) (largest : List Entry) : List Entry :=
  printLoop lines 0 (sortSlice sizeGreater largest)

/-- What the program relies on from `sort.Slice`: the result is a rearrangement of the
slice in which no element is `less` than an earlier one. -/
def SortContract (sortSlice : (Entry → Entry → Bool) → List Entry → List Entry) : Prop :=
  ∀ l : List Entry,
    (sortSlice sizeGreater l).Perm l ∧
    (sortSlice sizeGreater l).Pairwise (fun a b => sizeGreater b a = false)

/-- The inner loop of the insertion sort of Go's `sort` package, on the sorted part of
the slice kept in reverse: the new element moves towards the front while it is `less`
than its neighbour. -/
def insertBack (less : Entry → Entry → Bool) (x : Entry) : List Entry → List Entry
  | [] => [x]
  | y :: ys => if less x y then y :: insertBack less x ys else x :: y :: ys

/-- The insertion sort of Go's `sort` package, which is what `sort.Slice` runs on a
slice of fewer than 12 elements. -/
def insertionSort (less : Entry → Entry → Bool) (l : List Entry) : List Entry :=
  (l.foldl (fun sorted x => insertBack less x sorted) []).reverse

/-- The values of the variables `lines` and `dir` after `flag.Parse()`, with the
positional arguments `flag.Args()`. -/
structure Flags where
  lines : Int
  dir : Bool
  args : List String

/-- The constant `usage` of `main.go`, printed by `flag.Usage`. -/
def usage : String :=
  "Usage of largest:\n  -n, --lines int\n    \tLines of output (default: 1)\n" ++
  "  -d, --dir bool\n    \tDo not include directories (included by default)\n" ++
  "  --debug\n    \tDebug information\n"

/-- How the `flag` package reads one command-line argument. -/
inductive Arg where
  | positional
  | terminator
  | bad
  | named (name : String) (value : Option String)

/-- The name of a flag and the value after the first `=` that is not its first
character. -/
def splitValue : List Char → List Char × Option (List Char)
  | [] => ([], none)
  | c :: rest =>
    if c = '=' then
      ([], some rest)
    else
      ((c :: (splitValue rest).1), (splitValue rest).2)

/-- The name part of a flag, after its minus signs. -/
def flagName : List Char → Arg
  | [] => .bad
  | c :: rest =>
    if c = '-' ∨ c = '=' then
      .bad
    else
      .named (String.mk (c :: (splitValue rest).1)) ((splitValue rest).2.map String.mk)

/-- The syntax of one argument in `FlagSet.parseOne`: an argument shorter than two
characters or not starting with a minus sign is positional, `--` ends the flags, one or
two minus signs start a flag. -/
def classify (s : String) : Arg :=
  match s.data with
  | ['-', '-'] => .terminator
  | '-' :: '-' :: c :: rest => flagName (c :: rest)
  | '-' :: c :: rest => flagName (c :: rest)
  | _ => .positional

/-- The function `strconv.ParseBool`. -/
def parseBool (s : String) : Option Bool :=
  if s ∈ ["1", "t", "T", "TRUE", "true", "True"] then some true
  else if s ∈ ["0", "f", "F", "FALSE", "false", "False"] then some false
  else none

/-- The call `flag.Parse()` over the four flags registered by `processArgs`: `lines` and
`n` share an integer variable, `d` and `dir` share a boolean one. `pending` records that
the previous argument was an integer flag still waiting for its value; `atoi` is the
integer syntax of the `flag` package. Every parse error, and `-h` or `-help` after the
usage text is printed, ends the program. -/
def parseFlags (atoi : String → Option Int) :
    Bool → List String → Flags → Except Err Flags
  | false, [], fl => .ok { fl with args := [] }
  | true, [], _ => .error .badFlag
  | true, v :: rest, fl =>
    match atoi v with
    | none => .error .badFlag
    | some n => parseFlags atoi false rest { fl with lines := n }
  | false, s :: rest, fl =>
    match classify s with
    | .positional => .ok { fl with args := s :: rest }
    | .terminator => .ok { fl with args := rest }
    | .bad => .error .badFlag
    | .named name value =>
      if name = "d" ∨ name = "dir" then
        match value with
        | none => parseFlags atoi false rest { fl with dir := true }
        | some v =>
          match parseBool v with
          | none => .error .badFlag
          | some b => parseFlags atoi false rest { fl with dir := b }
      else if name = "n" ∨ name = "lines" then
        match value with
        | none => parseFlags atoi true rest fl
        | some v =>
          match atoi v with
          | none => .error .badFlag
          | some n => parseFlags atoi false rest { fl with lines := n }
      else if name = "h" ∨ name = "help" then
        .error .help
      else
        .error .badFlag

/-- The function `processArgs` of `main.go`: `lines` defaults to 1 and `dir` to false. -/
def processArgs (atoi : String → Option Int) (argv : List String) : Except Err Flags :=
  parseFlags atoi false argv ⟨1, false, []⟩

/-- The function `main` of `main.go`: the entries it prints. `splitPath` turns a
positional argument into the path the operating system resolves. -/
def main (atoi : String → Option Int) (splitPath : String → Path)
    (sortSlice : (Entry → Entry → Bool) → List Entry → List Entry)
    (fs : FS) (fuel : Nat) (sched : Schedule) (cwd : Except Err Path)
    (argv : List String) : Option (Except Err (List Entry)) :=
  match processArgs atoi argv with
  | .error err => some (.error err)
  | .ok fl =>
    match getByLargest fs fuel sched cwd (fl.args.map splitPath) fl.dir with
    | none => none
    | some (.error err) => some (.error err)
    | some (.ok largest) => some (.ok (printByLargest sortSlice fl.lines largest))

/-! ## The goroutines of `case true`, statement by statement

The listing above takes every append as one step. The source does not: the statement
`entries = append(entries, x)` reads `entries`, builds the new slice and assigns it, and
only the goroutines do so between `mu.Lock()` and `mu.Unlock()`. The machine below runs
the statements of the main goroutine and of the launched ones one at a time, in the
order a schedule gives. -/

/-- Where the main goroutine stands in `case true`. -/
inductive MainPc where
  | loop (files : List DirEntry)
  | assign (files : List DirEntry) (slice : List Entry)
  | wait
  | returned
  | died (err : Err)

/-- Where a launched goroutine stands. -/
inductive TaskPc where
  | start
  | lock (size : Nat)
  | append (size : Nat)
  | assign (slice : List Entry)
  | unlock
  | done
  | finished
  deriving DecidableEq

/-- A launched goroutine. -/
structure Goroutine where
  name : String
  path : Path
  pc : TaskPc

/-- The shared state: the slice `entries`, the holder of `mu`, the counter of `wg`, and
the number of assignments to `entries` made by a goroutine that did not hold `mu`. -/
structure RaceState where
  mainPc : MainPc
  tasks : List Goroutine
  entries : List Entry
  mu : Option Nat
  wg : Nat
  unguarded : Nat

/-- One statement of the main goroutine; `none` when it is blocked or has ended. -/
def stepMain (fs : FS) (target : Path) (st : RaceState) : Option RaceState :=
  match st.mainPc with
  | .loop [] => some { st with mainPc := .wait }
  | .loop (file :: files) =>
    match fs.stat (join target file.name) with
    | .error err =>
      if isNotExist err then
        some { st with mainPc := .loop files }
      else
        some { st with mainPc := .died err }
    | .ok stat =>
      if !stat.isDir then
        some { st with
          mainPc := .assign files (st.entries ++ [⟨file.name, uint64 stat.size⟩]) }
      else
        some { st with
          mainPc := .loop files
          wg := st.wg + 1
          tasks := st.tasks ++ [⟨file.name, join target file.name, .start⟩] }
  | .assign files slice =>
    some { st with mainPc := .loop files, entries := slice, unguarded := st.unguarded + 1 }
  | .wait => if st.wg = 0 then some { st with mainPc := .returned } else none
  | .returned => none
  | .died _ => none

/-- One statement of the launched goroutine number `i`; `none` when it is blocked, has
ended or does not exist. -/
def stepTask (fs : FS) (fuel : Nat) (st : RaceState) (i : Nat) : Option RaceState :=
  match st.tasks[i]? with
  | none => none
  | some g =>
    match g.pc with
    | .start =>
      match getDirectorySizeIter fs fuel g.path with
      | none => none
      | some size => some { st with tasks := st.tasks.set i { g with pc := .lock size } }
    | .lock size =>
      match st.mu with
      | some _ => none
      | none =>
        some { st with mu := some i, tasks := st.tasks.set i { g with pc := .append size } }
    | .append size =>
      some { st with
        tasks := st.tasks.set i { g with pc := .assign (st.entries ++ [⟨g.name, size⟩]) } }
    | .assign slice =>
      some { st with
        entries := slice
        unguarded := if st.mu = some i then st.unguarded else st.unguarded + 1
        tasks := st.tasks.set i { g with pc := .unlock } }
    | .unlock => some { st with mu := none, tasks := st.tasks.set i { g with pc := .done } }
    | .done => some { st with wg := st.wg - 1, tasks := st.tasks.set i { g with pc := .finished } }
    | .finished => none

/-- The run of a schedule: `0` lets the main goroutine run one statement, `i + 1` the
launched goroutine number `i`. -/
def runSchedule (fs : FS) (fuel : Nat) (target : Path) :
    List Nat → RaceState → Option RaceState
  | [], st => some st
  | 0 :: rest, st =>
    match stepMain fs target st with
    | none => none
    | some st => runSchedule fs fuel target rest st
  | (i + 1) :: rest, st =>
    match stepTask fs fuel st i with
    | none => none
    | some st => runSchedule fs fuel target rest st

/-- The state in which `case true` is entered for the listing `files`. -/
def raceStart (files : List DirEntry) : RaceState :=
  ⟨.loop files, [], [], none, 0, 0⟩

/-- The entries `getByLargest` returns at the end of a schedule, when it has returned. -/
def returnedEntries (st : Option RaceState) : Option (List Entry) :=
  match st with
  | none => none
  | some st =>
    match st.mainPc with
    | .returned => some st.entries
    | _ => none

/-! ## Finite directory trees -/

/-- A finite directory tree. `statErr` is the error, if any, of asking for the node's
file information; `listErr` is the error, if any, of listing a directory. `special`
stands for every object that is neither a regular file nor a directory (symbolic link,
device, socket, pipe). -/
inductive Node where
  | file (statErr : Option Err) (size : Nat)
  | special (statErr : Option Err) (size : Nat)
  | dir (statErr : Option Err) (listErr : Option Err) (size : Nat)
      (children : List (String × Node))

/-- The answer of `os.Stat` (and of `DirEntry.Info`) for a node. -/
def Node.info : Node → Except Err FileInfo
  | .file (some e) _ => .error e
  | .file none size => .ok ⟨false, true, size⟩
  | .special (some e) _ => .error e
  | .special none size => .ok ⟨false, false, size⟩
  | .dir (some e) _ _ _ => .error e
  | .dir none _ size _ => .ok ⟨true, false, size⟩

/-- The type bit of a directory entry. -/
def Node.isDir : Node → Bool
  | .dir _ _ _ _ => true
  | _ => false

/-- The directory entry of a named child. -/
def toDirEntry (c : String × Node) : DirEntry := ⟨c.1, c.2.isDir, c.2.info⟩

/-- The answer of `os.ReadDir` for a node. -/
def Node.list : Node → Except Err (List DirEntry)
  | .dir _ none _ children => .ok (children.map toDirEntry)
  | .dir _ (some e) _ _ => .error e
  | _ => .error .notDir

/-- The first child with the given name. -/
def findChild (name : String) : List (String × Node) → Option Node
  | [] => none
  | c :: rest => if c.1 = name then some c.2 else findChild name rest

/-- Path resolution from the root of a tree. -/
def Node.lookup : Node → Path → Option Node
  | n, [] => some n
  | .dir _ _ _ children, name :: rest =>
    match findChild name children with
    | none => none
    | some c => c.lookup rest
  | _, _ :: _ => none

/-- The operating system's answers for the tree `t` mounted at the empty path. -/
def fsOf (t : Node) : FS where
  stat p :=
    match t.lookup p with
    | none => .error .notExist
    | some n => n.info
  readDir p :=
    match t.lookup p with
    | none => .error .notExist
    | some n => n.list

mutual
/-- Number of nodes of a tree. -/
def Node.count : Node → Nat
  | .file _ _ => 1
  | .special _ _ => 1
  | .dir _ _ _ children => 1 + countList children
/-- Number of nodes of a list of children. -/
def countList : List (String × Node) → Nat
  | [] => 0
  | c :: rest => c.2.count + countList rest
end

mutual
/-- Names are pairwise distinct inside every directory. -/
def Node.wf : Node → Bool
  | .file _ _ => true
  | .special _ _ => true
  | .dir _ _ _ children => wfList children
/-- Names are pairwise distinct in this list and inside every directory below it. -/
def wfList : List (String × Node) → Bool
  | [] => true
  | c :: rest => (findChild c.1 rest).isNone && c.2.wf && wfList rest
end

mutual
/-- Every node can be stat-ed and every directory can be listed. -/
def Node.clean : Node → Bool
  | .file e _ => e.isNone
  | .special e _ => e.isNone
  | .dir e l _ children => e.isNone && l.isNone && cleanList children
/-- Every node below this list can be stat-ed and every directory listed. -/
def cleanList : List (String × Node) → Bool
  | [] => true
  | c :: rest => c.2.clean && cleanList rest
end

mutual
/-- Tree size, following the words of the specification: the byte length of a regular
file, nothing for any other object that is not a directory, and for a directory the sum
over the regular files at every depth; no directory's own size is counted. -/
def Node.treeSize : Node → Nat
  | .file _ size => size
  | .special _ _ => 0
  | .dir _ _ _ children => treeSizeList children
/-- Sum of the tree sizes of a list of children. -/
def treeSizeList : List (String × Node) → Nat
  | [] => 0
  | c :: rest => c.2.treeSize + treeSizeList rest
end

mutual
/-- Bytes of the regular files reachable through directories whose listing succeeds,
following the words of the specification: a directory whose listing fails and a file
whose information cannot be read contribute nothing. -/
def Node.reachSize : Node → Nat
  | .file none size => size
  | .file (some _) _ => 0
  | .special _ _ => 0
  | .dir _ none _ children => reachSizeList children
  | .dir _ (some _) _ _ => 0
/-- Sum of the reachable sizes of a list of children. -/
def reachSizeList : List (String × Node) → Nat
  | [] => 0
  | c :: rest => c.2.reachSize + reachSizeList rest
end

/-- What the specification promises for a root: nothing when the root cannot be stat-ed,
otherwise the reachable bytes as an unsigned 64-bit total. -/
def Node.rootSize (n : Node) : Nat :=
  match n.info with
  | .error _ => 0
  | .ok _ => n.reachSize % 2 ^ 64

/-- Bytes added to the total by one pass over the entries of a directory: the regular
files among its children whose information can be read. -/
def fileSum : List (String × Node) → Nat
  | [] => 0
  | c :: rest => (if c.2.isDir then 0 else c.2.reachSize) + fileSum rest

/-- The subdirectories among the children of the directory at `dir`, with their paths,
in listing order. -/
def subdirs (dir : Path) (children : List (String × Node)) : List (Path × Node) :=
  (children.filter (fun c => c.2.isDir)).map (fun c => (join dir c.1, c.2))

/-- Bytes found by the loop once the path of a node has been popped: the reachable bytes
of a directory that can be listed, nothing for anything else. -/
def Node.loopSize : Node → Nat
  | .dir _ none _ children => reachSizeList children
  | _ => 0

/-- The node is a regular file. -/
def Node.isRegular : Node → Bool
  | .file _ _ => true
  | _ => false

/-- The children of a directory; nothing for any other node. -/
def Node.children : Node → List (String × Node)
  | .dir _ _ _ children => children
  | _ => []

/-- The size `os.Stat` reports for a node. -/
def Node.size : Node → Nat
  | .file _ size => size
  | .special _ size => size
  | .dir _ _ size _ => size

/-- The `Entry` the specification gives a child of the target: its name with its own
byte length as an unsigned 64-bit number when it is not a directory, and with the total
of `getDirectorySizeIter` when it is one. -/
def childEntry (c : String × Node) : Entry :=
  ⟨c.1, if c.2.isDir then c.2.rootSize else c.2.size % 2 ^ 64⟩

/-- The child can be stat-ed. -/
def statable (c : String × Node) : Bool :=
  match c.2.info with
  | .ok _ => true
  | .error _ => false

/-- The first stat error among the children, in listing order. -/
def firstErr : List (String × Node) → Option Err
  | [] => none
  | c :: rest =>
    match c.2.info with
    | .error e => some e
    | .ok _ => firstErr rest

/-- The first stat error among the children that is not "does not exist". -/
def fatalErr : List (String × Node) → Option Err
  | [] => none
  | c :: rest =>
    match c.2.info with
    | .error e => if isNotExist e then fatalErr rest else some e
    | .ok _ => fatalErr rest

/-- The `Entry` a goroutine appends when it finishes. -/
def taskEntry (fs : FS) (fuel : Nat) (task : Task) : Entry :=
  ⟨task.name, (getDirectorySizeIter fs fuel task.path).getD 0⟩

/-- Every traversal of the given goroutines ends within the fuel. -/
def Terminates (fs : FS) (fuel : Nat) (pending : List Task) : Prop :=
  ∀ task ∈ pending, ∃ size, getDirectorySizeIter fs fuel task.path = some size

/-- The `Entry` of a child as the listing of the abstract file system produces it. -/
def listedEntry (fs : FS) (fuel : Nat) (target : Path) (c : String × Node) : Entry :=
  if c.2.isDir then
    taskEntry fs fuel ⟨c.1, join target c.1⟩
  else
    ⟨c.1, c.2.size % 2 ^ 64⟩

/-- A tree with a file that vanished, a directory that cannot be listed, a directory that
can, and a socket. -/
def brokenTree : Node :=
  .dir none none 4096
    [("ok", .file none 7), ("gone", .file (some .notExist) 100),
     ("locked", .dir none (some .permission) 4096 [("secret", .file none 50)]),
     ("open", .dir none none 4096 [("z", .file none 5)]),
     ("sock", .special none 9)]

/-- A directory with one child whose stat is refused. -/
def deniedTree : Node :=
  .dir none none 4096 [("a", .file none 10), ("b", .file (some .permission) 20)]

/-- A directory with a regular file and a named pipe. -/
def pipeTree : Node :=
  .dir none none 4096 [("a", .file none 10), ("fifo", .special none 0)]

/-- A directory with two empty subdirectories. -/
def twinTree : Node :=
  .dir none none 4096 [("a", .dir none none 4096 []), ("b", .dir none none 4096 [])]

/-- A directory whose listing gives a subdirectory before a regular file. -/
def raceTree : Node :=
  .dir none none 4096 [("d", .dir none none 4096 [("x", .file none 5)]), ("f", .file none 7)]

/-- The example of the specification with the subdirectory listed first: `os.ReadDir`
sorts by name and `0sub` comes before `a`. -/
def subFirstTree : Node :=
  .dir none none 4096
    [("0sub", .dir none none 4096 [("x", .file none 1000)]),
     ("a", .file none 10), ("b", .file none 20), ("c", .file none 30)]

/-- The children of the node a path resolves to; nothing when it does not resolve. -/
def childrenAt (t : Node) (target : Path) : List (String × Node) :=
  match t.lookup target with
  | some n => n.children
  | none => []

/-- The tree of the specification's example: files of 10, 20 and 30 bytes and one
subdirectory whose files add up to 1000 bytes. -/
def exampleTree : Node :=
  .dir none none 4096
    [("a", .file none 10), ("b", .file none 20), ("c", .file none 30),
     ("sub", .dir none none 4096
        [("x", .file none 400), ("deep", .dir none none 4096 [("y", .file none 600)])])]


/-! ## Lemmas on the interface and on trees -/

theorem uint64_natCast (n : Nat) : uint64 (n : Int) = n % 2 ^ 64 := by
  unfold uint64
  have h : ((n : Int) % 2 ^ 64) = ((n % 2 ^ 64 : Nat) : Int) := by
    push_cast
    rfl
  rw [h, Int.toNat_natCast]

theorem uint64_lt (x : Int) : uint64 x < 2 ^ 64 := by
  unfold uint64
  have h1 : 0 ≤ x % 2 ^ 64 := Int.emod_nonneg _ (by norm_num)
  have h2 : x % 2 ^ 64 < 2 ^ 64 := Int.emod_lt_of_pos _ (by norm_num)
  omega

theorem lookup_append (p q : Path) :
    ∀ t : Node, t.lookup (p ++ q) = (t.lookup p).bind (fun n => n.lookup q) := by
  induction p with
  | nil => intro t; cases t <;> simp [Node.lookup]
  | cons name rest ih =>
    intro t
    cases t with
    | file e s => simp [Node.lookup]
    | special e s => simp [Node.lookup]
    | dir e l s cs =>
      simp only [List.cons_append, Node.lookup]
      cases findChild name cs with
      | none => rfl
      | some c => exact ih c

theorem findChild_of_mem :
    ∀ (cs : List (String × Node)) (c : String × Node),
      wfList cs = true → c ∈ cs → findChild c.1 cs = some c.2 := by
  intro cs
  induction cs with
  | nil => intro c _ hc; cases hc
  | cons d rest ih =>
    intro c hwf hc
    simp only [wfList, Bool.and_eq_true] at hwf
    rcases List.mem_cons.mp hc with h | h
    · subst h; simp [findChild]
    · have hfind := ih c hwf.2 h
      by_cases hd : d.1 = c.1
      · have h1 := hwf.1.1
        rw [hd, hfind] at h1
        simp at h1
      · simp [findChild, hd, hfind]

theorem wf_of_mem :
    ∀ (cs : List (String × Node)) (c : String × Node),
      wfList cs = true → c ∈ cs → c.2.wf = true := by
  intro cs
  induction cs with
  | nil => intro c _ hc; cases hc
  | cons d rest ih =>
    intro c hwf hc
    simp only [wfList, Bool.and_eq_true] at hwf
    rcases List.mem_cons.mp hc with h | h
    · subst h; exact hwf.1.2
    · exact ih c hwf.2 h

theorem mem_of_findChild (name : String) :
    ∀ (cs : List (String × Node)) (c : Node),
      findChild name cs = some c → (name, c) ∈ cs := by
  intro cs
  induction cs with
  | nil => intro c h; simp [findChild] at h
  | cons d rest ih =>
    intro c h
    by_cases hd : d.1 = name
    · simp only [findChild, hd, if_true, Option.some.injEq] at h
      subst h; subst hd
      exact List.mem_cons_self _ _
    · simp only [findChild, hd, if_false] at h
      exact List.mem_cons_of_mem _ (ih c h)

theorem wf_lookup (p : Path) :
    ∀ (t n : Node), t.wf = true → t.lookup p = some n → n.wf = true := by
  induction p with
  | nil =>
    intro t n hwf h
    cases t <;> simp [Node.lookup] at h <;> subst h <;> exact hwf
  | cons name rest ih =>
    intro t n hwf h
    cases t with
    | file e s => simp [Node.lookup] at h
    | special e s => simp [Node.lookup] at h
    | dir e l s cs =>
      simp only [Node.lookup] at h
      cases hf : findChild name cs with
      | none => rw [hf] at h; simp at h
      | some c =>
        rw [hf] at h
        have hc := wf_of_mem cs (name, c) (by simpa [Node.wf] using hwf)
          (mem_of_findChild name cs c hf)
        exact ih c n hc h

theorem lookup_child (t : Node) (p : Path) (e l : Option Err) (s : Nat)
    (cs : List (String × Node)) (c : String × Node)
    (hp : t.lookup p = some (.dir e l s cs)) (hwf : wfList cs = true) (hc : c ∈ cs) :
    t.lookup (join p c.1) = some c.2 := by
  unfold join
  rw [lookup_append, hp]
  simp only [Option.bind, Node.lookup, findChild_of_mem cs c hwf hc]

/-! ## The traversal loop -/

theorem subdirs_cons_dir (dir : Path) (name : String) (e l : Option Err) (s : Nat)
    (cs rest : List (String × Node)) :
    subdirs dir ((name, .dir e l s cs) :: rest)
      = (join dir name, .dir e l s cs) :: subdirs dir rest := rfl

theorem subdirs_cons_file (dir : Path) (name : String) (e : Option Err) (s : Nat)
    (rest : List (String × Node)) :
    subdirs dir ((name, .file e s) :: rest) = subdirs dir rest := rfl

theorem subdirs_cons_special (dir : Path) (name : String) (e : Option Err) (s : Nat)
    (rest : List (String × Node)) :
    subdirs dir ((name, .special e s) :: rest) = subdirs dir rest := rfl

theorem fileSum_cons_dir (name : String) (e l : Option Err) (s : Nat)
    (cs rest : List (String × Node)) :
    fileSum ((name, .dir e l s cs) :: rest) = fileSum rest := by
  simp [fileSum, Node.isDir]

theorem fileSum_cons_file (name : String) (s : Nat) (rest : List (String × Node)) :
    fileSum ((name, .file none s) :: rest) = s + fileSum rest := by
  simp [fileSum, Node.isDir, Node.reachSize]

theorem fileSum_cons_file_err (name : String) (e : Err) (s : Nat)
    (rest : List (String × Node)) :
    fileSum ((name, .file (some e) s) :: rest) = fileSum rest := by
  simp [fileSum, Node.isDir, Node.reachSize]

theorem fileSum_cons_special (name : String) (e : Option Err) (s : Nat)
    (rest : List (String × Node)) :
    fileSum ((name, .special e s) :: rest) = fileSum rest := by
  simp [fileSum, Node.isDir, Node.reachSize]

theorem scanEntries_children (dir : Path) :
    ∀ (cs : List (String × Node)) (stack : List Path) (total : Nat), total < 2 ^ 64 →
      scanEntries dir (cs.map toDirEntry) stack total
        = (stack ++ (subdirs dir cs).map Prod.fst, (total + fileSum cs) % 2 ^ 64) := by
  intro cs
  induction cs with
  | nil =>
    intro stack total ht
    simp only [List.map_nil, scanEntries, subdirs, fileSum, List.filter_nil, List.append_nil,
      Nat.add_zero, Nat.mod_eq_of_lt ht]
  | cons c rest ih =>
    intro stack total ht
    obtain ⟨name, node⟩ := c
    cases node with
    | dir e l s cs =>
      simp only [List.map_cons, scanEntries, toDirEntry, Node.isDir, if_true]
      rw [ih _ _ ht, subdirs_cons_dir, fileSum_cons_dir]
      simp
    | file e s =>
      cases e with
      | some e =>
        simp only [List.map_cons, scanEntries, toDirEntry, Node.isDir, Node.info]
        rw [subdirs_cons_file, fileSum_cons_file_err]
        simpa using ih stack total ht
      | none =>
        simp only [List.map_cons, scanEntries, toDirEntry, Node.isDir, Node.info]
        simp only [Bool.false_eq_true, if_false, if_true, uint64_natCast]
        rw [ih _ _ (Nat.mod_lt _ (by norm_num)), subdirs_cons_file, fileSum_cons_file]
        congr 1
        omega
    | special e s =>
      rw [subdirs_cons_special, fileSum_cons_special]
      cases e with
      | some e =>
        simp only [List.map_cons, scanEntries, toDirEntry, Node.isDir, Node.info]
        simpa using ih stack total ht
      | none =>
        simp only [List.map_cons, scanEntries, toDirEntry, Node.isDir, Node.info]
        simpa using ih stack total ht

theorem loopSize_dir (e l : Option Err) (s : Nat) (cs : List (String × Node)) :
    (Node.dir e l s cs).loopSize = (Node.dir e l s cs).reachSize := by
  cases l <;> simp [Node.loopSize, Node.reachSize]

theorem reachSizeList_split (dir : Path) :
    ∀ cs : List (String × Node),
      reachSizeList cs = fileSum cs + ((subdirs dir cs).map (fun it => it.2.loopSize)).sum := by
  intro cs
  induction cs with
  | nil => simp [reachSizeList, fileSum, subdirs]
  | cons c rest ih =>
    obtain ⟨name, node⟩ := c
    cases node with
    | dir e l s cs =>
      rw [subdirs_cons_dir, fileSum_cons_dir, reachSizeList, ih, List.map_cons, List.sum_cons,
        loopSize_dir]
      simp only
      omega
    | file e s =>
      cases e with
      | none =>
        rw [subdirs_cons_file, fileSum_cons_file, reachSizeList, ih]
        simp only [Node.reachSize]
        omega
      | some e =>
        rw [subdirs_cons_file, fileSum_cons_file_err, reachSizeList, ih]
        simp only [Node.reachSize]
        omega
    | special e s =>
      rw [subdirs_cons_special, fileSum_cons_special, reachSizeList, ih]
      simp only [Node.reachSize]
      omega

theorem count_subdirs_le (dir : Path) :
    ∀ cs : List (String × Node),
      ((subdirs dir cs).map (fun it => it.2.count)).sum ≤ countList cs := by
  intro cs
  induction cs with
  | nil => simp [subdirs, countList]
  | cons c rest ih =>
    obtain ⟨name, node⟩ := c
    cases node with
    | dir e l s cs =>
      rw [subdirs_cons_dir, countList, List.map_cons, List.sum_cons]
      simp only
      omega
    | file e s =>
      rw [subdirs_cons_file, countList]
      omega
    | special e s =>
      rw [subdirs_cons_special, countList]
      omega

theorem Node.count_pos (n : Node) : 0 < n.count := by
  cases n <;> simp [Node.count]

theorem mem_subdirs (t : Node) (p : Path) (e l : Option Err) (s : Nat)
    (cs : List (String × Node)) (hp : t.lookup p = some (.dir e l s cs))
    (hwf : wfList cs = true) (it : Path × Node) (hit : it ∈ subdirs p cs) :
    t.lookup it.1 = some it.2 ∧ it.2.wf = true := by
  simp only [subdirs, List.mem_map, List.mem_filter] at hit
  obtain ⟨c, ⟨hc, _⟩, rfl⟩ := hit
  exact ⟨lookup_child t p e l s cs c hp hwf hc, wf_of_mem cs c hwf hc⟩

theorem sizeLoop_nil (fs : FS) (fuel total : Nat) : sizeLoop fs fuel [] total = some total := by
  unfold sizeLoop
  rfl

theorem sizeLoop_concat (fs : FS) (fuel total : Nat) (stack : List Path) (dir : Path) :
    sizeLoop fs (fuel + 1) (stack ++ [dir]) total
      = match fs.readDir dir with
        | .error _ => sizeLoop fs fuel stack total
        | .ok entries =>
          sizeLoop fs fuel (scanEntries dir entries stack total).1
            (scanEntries dir entries stack total).2 := by
  rw [sizeLoop]
  simp only [List.getLast?_append, List.getLast?_singleton, Option.or,
    List.dropLast_concat]

theorem readDir_fsOf (t n : Node) (p : Path) (h : t.lookup p = some n) :
    (fsOf t).readDir p = n.list := by
  simp [fsOf, h]

theorem stat_fsOf (t n : Node) (p : Path) (h : t.lookup p = some n) :
    (fsOf t).stat p = n.info := by
  simp [fsOf, h]

/-- Loop invariant of `getDirectorySizeIter`: with the paths of `items` on the stack and
fuel for every node below them, the loop ends with the running total plus everything
reachable from the stack. -/
theorem sizeLoop_items (t : Node) :
    ∀ (fuel : Nat) (items : List (Path × Node)) (total : Nat),
      total < 2 ^ 64 →
      (∀ it ∈ items, t.lookup it.1 = some it.2 ∧ it.2.wf = true) →
      (items.map (fun it => it.2.count)).sum ≤ fuel →
      sizeLoop (fsOf t) fuel (items.map Prod.fst) total
        = some ((total + (items.map (fun it => it.2.loopSize)).sum) % 2 ^ 64) := by
  intro fuel
  induction fuel with
  | zero =>
    intro items total ht hit hc
    rcases List.eq_nil_or_concat items with h | ⟨init, x, h⟩
    · subst h
      simp only [List.map_nil, sizeLoop_nil, List.sum_nil, Nat.add_zero, Nat.mod_eq_of_lt ht]
    · subst h
      have := Node.count_pos x.2
      simp at hc
      omega
  | succ fuel ih =>
    intro items total ht hit hc
    rcases List.eq_nil_or_concat items with h | ⟨init, x, h⟩
    · subst h
      simp only [List.map_nil, sizeLoop_nil, List.sum_nil, Nat.add_zero, Nat.mod_eq_of_lt ht]
    · subst h
      obtain ⟨p, n⟩ := x
      have hx := hit (p, n) (by simp)
      have hinit : ∀ it ∈ init, t.lookup it.1 = some it.2 ∧ it.2.wf = true :=
        fun it h => hit it (by simp [h])
      simp only [List.concat_eq_append, List.map_append, List.map_cons, List.map_nil,
        List.sum_append, List.sum_cons, List.sum_nil, Nat.add_zero] at hc ⊢
      rw [sizeLoop_concat, readDir_fsOf t n p hx.1]
      have hpos := Node.count_pos n
      cases n with
      | file e s =>
        have h0 : (Node.file e s).loopSize = 0 := rfl
        simp only [Node.list, h0, Nat.add_zero]
        exact ih init total ht hinit (by omega)
      | special e s =>
        have h0 : (Node.special e s).loopSize = 0 := rfl
        simp only [Node.list, h0, Nat.add_zero]
        exact ih init total ht hinit (by omega)
      | dir e l s cs =>
        cases l with
        | some le =>
          have h0 : (Node.dir e (some le) s cs).loopSize = 0 := rfl
          simp only [Node.list, h0, Nat.add_zero]
          exact ih init total ht hinit (by omega)
        | none =>
          have hwf : wfList cs = true := by simpa [Node.wf] using hx.2
          have h0 : (Node.dir e none s cs).loopSize = reachSizeList cs := rfl
          simp only [Node.list, h0]
          rw [scanEntries_children p cs _ total ht]
          simp only
          have hcount := count_subdirs_le p cs
          have hcnt : (Node.dir e none s cs).count = 1 + countList cs := by
            simp [Node.count]
          rw [hcnt] at hc
          have hitems : ∀ it ∈ init ++ subdirs p cs,
              t.lookup it.1 = some it.2 ∧ it.2.wf = true := by
            intro it h
            rcases List.mem_append.mp h with h | h
            · exact hinit it h
            · exact mem_subdirs t p e none s cs hx.1 hwf it h
          have hstep := ih (init ++ subdirs p cs) ((total + fileSum cs) % 2 ^ 64)
            (Nat.mod_lt _ (by norm_num)) hitems
            (by simp only [List.map_append, List.sum_append]; omega)
          simp only [List.map_append, List.sum_append] at hstep
          rw [hstep, reachSizeList_split p cs]
          congr 1
          omega

/-- What `getDirectorySizeIter` returns on a finite tree: for every path that resolves to
a node, fuel for the nodes below it is enough, and the answer is the promised root size. -/
theorem getDirectorySizeIter_lookup (t n : Node) (p : Path) (fuel : Nat)
    (hwf : t.wf = true) (hp : t.lookup p = some n) (hfuel : n.count ≤ fuel) :
    getDirectorySizeIter (fsOf t) fuel p = some n.rootSize := by
  have hnwf := wf_lookup p t n hwf hp
  have hloop := sizeLoop_items t fuel [(p, n)] 0 (by norm_num)
    (by intro it h; simp at h; subst h; exact ⟨hp, hnwf⟩) (by simpa using hfuel)
  simp only [List.map_cons, List.map_nil, List.sum_cons, List.sum_nil, Nat.add_zero,
    Nat.zero_add] at hloop
  unfold getDirectorySizeIter
  rw [stat_fsOf t n p hp]
  cases n with
  | file e s =>
    cases e <;> simp [Node.info, Node.rootSize, Node.reachSize, uint64_natCast]
  | special e s =>
    cases e with
    | some e => simp [Node.info, Node.rootSize]
    | none =>
      simp only [Node.info, Node.rootSize, Node.reachSize]
      simp only [Bool.not_false, Bool.and_false, Bool.false_eq_true, if_false]
      rw [hloop]
      simp [Node.loopSize]
  | dir e l s cs =>
    cases e with
    | some e => simp [Node.info, Node.rootSize]
    | none =>
      simp only [Node.info, Node.rootSize]
      simp only [Bool.not_true, Bool.false_and, Bool.false_eq_true, if_false]
      rw [hloop, loopSize_dir]

/-! ## The listing -/

theorem perm_cons_eraseIdx {α : Type} :
    ∀ (l : List α) (i : Nat) (x : α), l[i]? = some x → l.Perm (x :: l.eraseIdx i) := by
  intro l
  induction l with
  | nil => intro i x h; simp at h
  | cons y ys ih =>
    intro i x h
    cases i with
    | zero =>
      simp only [List.getElem?_cons_zero, Option.some.injEq] at h
      subst h
      simp
    | succ i =>
      simp only [List.getElem?_cons_succ] at h
      simp only [List.eraseIdx_cons_succ]
      exact ((ih i x h).cons y).trans (List.Perm.swap x y _)

theorem info_size_ok (n : Node) (st : FileInfo) (h : n.info = .ok st) :
    st.isDir = n.isDir ∧ st.size = (n.size : Int) := by
  cases n with
  | file e s => cases e <;> simp [Node.info] at h; subst h; simp [Node.isDir, Node.size]
  | special e s => cases e <;> simp [Node.info] at h; subst h; simp [Node.isDir, Node.size]
  | dir e l s cs => cases e <;> simp [Node.info] at h; subst h; simp [Node.isDir, Node.size]

theorem finishTasks_spec (fs : FS) (fuel : Nat) :
    ∀ (picks : List Nat) (pending : List Task) (entries : List Entry),
      Terminates fs fuel pending →
      ∃ pending' entries',
        finishTasks fs fuel picks pending entries = some (pending', entries') ∧
        Terminates fs fuel pending' ∧
        (entries' ++ pending'.map (taskEntry fs fuel)).Perm
          (entries ++ pending.map (taskEntry fs fuel)) := by
  intro picks
  induction picks with
  | nil =>
    intro pending entries hterm
    exact ⟨pending, entries, rfl, hterm, List.Perm.refl _⟩
  | cons k picks ih =>
    intro pending entries hterm
    cases hget : pending[k % pending.length]? with
    | none =>
      refine ⟨pending, entries, ?_, hterm, List.Perm.refl _⟩
      simp [finishTasks, hget]
    | some task =>
      have hperm := perm_cons_eraseIdx pending _ task hget
      have hmem : task ∈ pending := hperm.symm.subset (List.mem_cons_self _ _)
      obtain ⟨size, hsize⟩ := hterm task hmem
      have hterm' : Terminates fs fuel (pending.eraseIdx (k % pending.length)) := by
        intro x hx
        exact hterm x (hperm.symm.subset (List.mem_cons_of_mem _ hx))
      obtain ⟨pending', entries', hrun, ht', hp'⟩ :=
        ih (pending.eraseIdx (k % pending.length)) (entries ++ [⟨task.name, size⟩]) hterm'
      refine ⟨pending', entries', ?_, ht', hp'.trans ?_⟩
      · simp [finishTasks, hget, hsize, hrun]
      · have he : (⟨task.name, size⟩ : Entry) = taskEntry fs fuel task := by
          simp [taskEntry, hsize]
        rw [he, List.append_assoc]
        refine List.Perm.append_left _ ?_
        exact (hperm.map (taskEntry fs fuel)).symm

theorem finishTasks_drain (fs : FS) (fuel : Nat) :
    ∀ (n : Nat) (pending : List Task) (entries : List Entry),
      Terminates fs fuel pending → pending.length ≤ n →
      ∃ rest, finishTasks fs fuel (List.replicate n 0) pending entries
        = some (rest, entries ++ pending.map (taskEntry fs fuel)) := by
  intro n
  induction n with
  | zero =>
    intro pending entries _ hlen
    have : pending = [] := List.length_eq_zero.mp (Nat.le_zero.mp hlen)
    subst this
    exact ⟨[], by simp [finishTasks]⟩
  | succ n ih =>
    intro pending entries hterm hlen
    cases pending with
    | nil => exact ⟨[], by simp [List.replicate_succ, finishTasks]⟩
    | cons task rest =>
      obtain ⟨size, hsize⟩ := hterm task (List.mem_cons_self _ _)
      obtain ⟨r, hr⟩ := ih rest (entries ++ [⟨task.name, size⟩])
        (fun x hx => hterm x (List.mem_cons_of_mem _ hx))
        (by simpa using hlen)
      refine ⟨r, ?_⟩
      simp only [List.replicate_succ, finishTasks, Nat.zero_mod, List.getElem?_cons_zero,
        hsize, List.eraseIdx_cons_zero, hr]
      simp [taskEntry, hsize]

theorem waitAll_spec (fs : FS) (fuel : Nat) (picks : List Nat) (pending : List Task)
    (entries : List Entry) (hterm : Terminates fs fuel pending) :
    ∃ entries', waitAll fs fuel picks pending entries = some entries' ∧
      entries'.Perm (entries ++ pending.map (taskEntry fs fuel)) := by
  obtain ⟨pending', entries', hrun, ht', hp'⟩ := finishTasks_spec fs fuel picks pending entries hterm
  obtain ⟨r, hr⟩ := finishTasks_drain fs fuel pending'.length pending' entries' ht' (Nat.le_refl _)
  refine ⟨entries' ++ pending'.map (taskEntry fs fuel), ?_, hp'⟩
  simp [waitAll, hrun, hr]

theorem listFiles_spec (fs : FS) (target : Path) :
    ∀ (sub : List (String × Node)) (entries : List Entry),
      (∀ c ∈ sub, fs.stat (join target c.1) = c.2.info) →
      listFiles fs target (sub.map toDirEntry) entries
        = match firstErr sub with
          | some e => .error e
          | none => .ok (entries ++ (sub.filter (fun c => !c.2.isDir)).map childEntry) := by
  intro sub
  induction sub with
  | nil => intro entries _; simp [listFiles, firstErr]
  | cons c rest ih =>
    intro entries hstat
    have hc := hstat c (List.mem_cons_self _ _)
    have hrest : ∀ d ∈ rest, fs.stat (join target d.1) = d.2.info :=
      fun d hd => hstat d (List.mem_cons_of_mem _ hd)
    simp only [List.map_cons, listFiles, toDirEntry, hc, firstErr]
    cases hinfo : c.2.info with
    | error e => rfl
    | ok st =>
      obtain ⟨hdir, hsize⟩ := info_size_ok c.2 st hinfo
      simp only [hdir, hsize, uint64_natCast]
      by_cases hd : c.2.isDir = true
      · simp only [hd, Bool.not_true, Bool.false_eq_true, if_false]
        rw [ih entries hrest]
        simp [List.filter_cons, hd]
      · simp only [hd, Bool.not_false, if_true]
        rw [ih _ hrest]
        cases firstErr rest with
        | some e => rfl
        | none => simp [List.filter_cons, hd, childEntry]

theorem cons_eq_singleton_append (x : Entry) (l : List Entry) : x :: l = [x] ++ l := rfl

theorem listAll_spec (fs : FS) (fuel : Nat) (target : Path) :
    ∀ (sub : List (String × Node)) (during : List (List Nat)) (pending : List Task)
      (entries : List Entry),
      (∀ c ∈ sub, fs.stat (join target c.1) = c.2.info) →
      (∀ c ∈ sub, c.2.isDir = true →
        ∃ size, getDirectorySizeIter fs fuel (join target c.1) = some size) →
      Terminates fs fuel pending →
      ∃ r, listAll fs fuel target (sub.map toDirEntry) during pending entries = some r ∧
        match fatalErr sub with
        | some e => r = .error e
        | none => ∃ pending' entries', r = .ok (pending', entries') ∧
            Terminates fs fuel pending' ∧
            (entries' ++ pending'.map (taskEntry fs fuel)).Perm
              (entries ++ pending.map (taskEntry fs fuel)
                ++ (sub.filter statable).map (listedEntry fs fuel target)) := by
  intro sub
  induction sub with
  | nil =>
    intro during pending entries _ _ hterm
    exact ⟨.ok (pending, entries), by simp [listAll], by
      simp only [fatalErr]
      exact ⟨pending, entries, rfl, hterm, by simp⟩⟩
  | cons c rest ih =>
    intro during pending entries hstat hsizes hterm
    have hc := hstat c (List.mem_cons_self _ _)
    have hrest : ∀ d ∈ rest, fs.stat (join target d.1) = d.2.info :=
      fun d hd => hstat d (List.mem_cons_of_mem _ hd)
    have hsrest : ∀ d ∈ rest, d.2.isDir = true →
        ∃ size, getDirectorySizeIter fs fuel (join target d.1) = some size :=
      fun d hd => hsizes d (List.mem_cons_of_mem _ hd)
    obtain ⟨pending1, entries1, hrun1, hterm1, hperm1⟩ :=
      finishTasks_spec fs fuel (during.headD []) pending entries hterm
    rw [← Multiset.coe_eq_coe] at hperm1
    simp only [← Multiset.coe_add] at hperm1
    simp only [List.map_cons, listAll, hrun1, toDirEntry, hc, fatalErr]
    cases hinfo : c.2.info with
    | error e =>
      have hns : statable c = false := by simp [statable, hinfo]
      by_cases he : isNotExist e = true
      · simp only [he, if_true]
        obtain ⟨r, hr, hspec⟩ := ih during.tail pending1 entries1 hrest hsrest hterm1
        refine ⟨r, hr, ?_⟩
        cases hf : fatalErr rest with
        | some e2 => simpa [hf] using hspec
        | none =>
          simp only [hf] at hspec ⊢
          obtain ⟨pending', entries', hr', ht', hp'⟩ := hspec
          refine ⟨pending', entries', hr', ht', ?_⟩
          rw [← Multiset.coe_eq_coe] at hp' ⊢
          simp only [← Multiset.coe_add, List.filter_cons, hns, Bool.false_eq_true,
            if_false] at hp' ⊢
          rw [hp', hperm1]
      · simp only [he, Bool.false_eq_true, if_false]
        exact ⟨.error e, rfl, rfl⟩
    | ok st =>
      obtain ⟨hdir, hsize⟩ := info_size_ok c.2 st hinfo
      have hs : statable c = true := by simp [statable, hinfo]
      simp only [hdir, hsize, uint64_natCast]
      by_cases hd : c.2.isDir = true
      · simp only [hd, Bool.not_true, Bool.false_eq_true, if_false]
        have hterm2 : Terminates fs fuel (pending1 ++ [⟨c.1, join target c.1⟩]) := by
          intro x hx
          rcases List.mem_append.mp hx with h | h
          · exact hterm1 x h
          · simp only [List.mem_singleton] at h
            subst h
            exact hsizes c (List.mem_cons_self _ _) hd
        obtain ⟨r, hr, hspec⟩ := ih during.tail _ entries1 hrest hsrest hterm2
        refine ⟨r, hr, ?_⟩
        cases hf : fatalErr rest with
        | some e2 => simpa [hf] using hspec
        | none =>
          simp only [hf] at hspec ⊢
          obtain ⟨pending', entries', hr', ht', hp'⟩ := hspec
          refine ⟨pending', entries', hr', ht', ?_⟩
          rw [← Multiset.coe_eq_coe] at hp' ⊢
          simp only [← Multiset.coe_add, List.filter_cons, hs, if_true, List.map_append,
            List.map_cons, List.map_nil] at hp' ⊢
          rw [hp', ← hperm1]
          have hl : listedEntry fs fuel target c = taskEntry fs fuel ⟨c.1, join target c.1⟩ := by
            simp [listedEntry, hd]
          rw [hl, cons_eq_singleton_append _
            (List.map (listedEntry fs fuel target) (List.filter statable rest)),
            ← Multiset.coe_add]
          abel
      · simp only [hd, Bool.not_false, if_true]
        obtain ⟨r, hr, hspec⟩ := ih during.tail pending1 (entries1 ++ [⟨c.1, c.2.size % 2 ^ 64⟩])
          hrest hsrest hterm1
        refine ⟨r, hr, ?_⟩
        cases hf : fatalErr rest with
        | some e2 => simpa [hf] using hspec
        | none =>
          simp only [hf] at hspec ⊢
          obtain ⟨pending', entries', hr', ht', hp'⟩ := hspec
          refine ⟨pending', entries', hr', ht', ?_⟩
          rw [← Multiset.coe_eq_coe] at hp' ⊢
          simp only [← Multiset.coe_add, List.filter_cons, hs, if_true, List.map_append,
            List.map_cons, List.map_nil] at hp' ⊢
          rw [hp', ← hperm1]
          have hl : listedEntry fs fuel target c = ⟨c.1, c.2.size % 2 ^ 64⟩ := by
            simp [listedEntry, hd]
          rw [hl, cons_eq_singleton_append _
            (List.map (listedEntry fs fuel target) (List.filter statable rest)),
            ← Multiset.coe_add]
          abel

theorem count_le_of_mem :
    ∀ (cs : List (String × Node)) (c : String × Node), c ∈ cs → c.2.count ≤ countList cs := by
  intro cs
  induction cs with
  | nil => intro c hc; cases hc
  | cons d rest ih =>
    intro c hc
    rcases List.mem_cons.mp hc with h | h
    · subst h; simp [countList]
    · have := ih c h
      simp only [countList]
      omega

theorem child_size (t : Node) (p : Path) (e l : Option Err) (s fuel : Nat)
    (cs : List (String × Node)) (hwf : t.wf = true)
    (hp : t.lookup p = some (.dir e l s cs)) (hfuel : (Node.dir e l s cs).count ≤ fuel)
    (c : String × Node) (hc : c ∈ cs) :
    getDirectorySizeIter (fsOf t) fuel (join p c.1) = some c.2.rootSize := by
  have hcs : wfList cs = true := by
    simpa [Node.wf] using wf_lookup p t _ hwf hp
  have hle := count_le_of_mem cs c hc
  simp only [Node.count] at hfuel
  exact getDirectorySizeIter_lookup t c.2 (join p c.1) fuel hwf
    (lookup_child t p e l s cs c hp hcs hc) (by omega)

theorem child_stat (t : Node) (p : Path) (e l : Option Err) (s : Nat)
    (cs : List (String × Node)) (hwf : t.wf = true)
    (hp : t.lookup p = some (.dir e l s cs)) (c : String × Node) (hc : c ∈ cs) :
    (fsOf t).stat (join p c.1) = c.2.info := by
  have hcs : wfList cs = true := by
    simpa [Node.wf] using wf_lookup p t _ hwf hp
  exact stat_fsOf t c.2 _ (lookup_child t p e l s cs c hp hcs hc)

theorem listedEntry_child (t : Node) (p : Path) (e l : Option Err) (s fuel : Nat)
    (cs : List (String × Node)) (hwf : t.wf = true)
    (hp : t.lookup p = some (.dir e l s cs)) (hfuel : (Node.dir e l s cs).count ≤ fuel)
    (c : String × Node) (hc : c ∈ cs) :
    listedEntry (fsOf t) fuel p c = childEntry c := by
  unfold listedEntry childEntry taskEntry
  rw [child_size t p e l s fuel cs hwf hp hfuel c hc]
  by_cases hd : c.2.isDir = true <;> simp [hd]

/-- The listing without directories on a tree: the first stat error is fatal, otherwise
the children that are not directories are returned in listing order. -/
theorem getByLargest_files (t : Node) (target : Path) (e : Option Err) (s fuel : Nat)
    (cs : List (String × Node)) (sched : Schedule) (cwd : Except Err Path)
    (args : List Path) (hwf : t.wf = true) (htarget : resolveTarget cwd args = .ok target)
    (hp : t.lookup target = some (.dir e none s cs)) :
    getByLargest (fsOf t) fuel sched cwd args false
      = some (match firstErr cs with
          | some err => .error err
          | none => .ok ((cs.filter (fun c => !c.2.isDir)).map childEntry)) := by
  unfold getByLargest
  rw [htarget]
  simp only [readDir_fsOf t _ target hp, Node.list]
  rw [listFiles_spec (fsOf t) target cs [] (child_stat t target e none s cs hwf hp)]
  simp

/-- The listing with directories on a tree: the first stat error other than "does not
exist" is fatal, otherwise every child that can be stat-ed has its `Entry` in the result,
in an order that depends on the schedule. -/
theorem getByLargest_dirs (t : Node) (target : Path) (e : Option Err) (s fuel : Nat)
    (cs : List (String × Node)) (sched : Schedule) (cwd : Except Err Path)
    (args : List Path) (hwf : t.wf = true) (htarget : resolveTarget cwd args = .ok target)
    (hp : t.lookup target = some (.dir e none s cs))
    (hfuel : (Node.dir e none s cs).count ≤ fuel) :
    ∃ r, getByLargest (fsOf t) fuel sched cwd args true = some r ∧
      match fatalErr cs with
      | some err => r = .error err
      | none => ∃ entries, r = .ok entries ∧
          entries.Perm ((cs.filter statable).map childEntry) := by
  obtain ⟨r, hr, hspec⟩ := listAll_spec (fsOf t) fuel target cs sched.during [] []
    (child_stat t target e none s cs hwf hp)
    (fun c hc _ => ⟨_, child_size t target e none s fuel cs hwf hp hfuel c hc⟩)
    (by intro x hx; cases hx)
  unfold getByLargest
  rw [htarget]
  simp only [readDir_fsOf t _ target hp, Node.list, hr]
  cases hf : fatalErr cs with
  | some err =>
    simp only [hf] at hspec
    subst hspec
    exact ⟨.error err, rfl, rfl⟩
  | none =>
    simp only [hf] at hspec
    obtain ⟨pending', entries', hr', ht', hp'⟩ := hspec
    subst hr'
    obtain ⟨out, hout, hperm⟩ := waitAll_spec (fsOf t) fuel sched.atWait pending' entries' ht'
    refine ⟨.ok out, by simp [hout], out, rfl, ?_⟩
    refine (hperm.trans hp').trans ?_
    simp only [List.map_nil, List.append_nil, List.nil_append]
    have hmap : ∀ c ∈ cs.filter statable, listedEntry (fsOf t) fuel target c = childEntry c :=
      fun c hc => listedEntry_child t target e none s fuel cs hwf hp hfuel c
        (List.mem_of_mem_filter hc)
    rw [List.map_congr_left hmap]

mutual
theorem reachSize_clean : ∀ n : Node, n.clean = true → n.reachSize = n.treeSize
  | .file e s, h => by
    cases e with
    | none => rfl
    | some e => simp [Node.clean] at h
  | .special _ _, _ => rfl
  | .dir e l s cs, h => by
    cases l with
    | some le => simp [Node.clean] at h
    | none =>
      simp only [Node.clean, Bool.and_eq_true] at h
      simp only [Node.reachSize, Node.treeSize]
      exact reachSizeList_clean cs h.2
theorem reachSizeList_clean :
    ∀ cs : List (String × Node), cleanList cs = true → reachSizeList cs = treeSizeList cs
  | [], _ => rfl
  | c :: rest, h => by
    simp only [cleanList, Bool.and_eq_true] at h
    simp only [reachSizeList, treeSizeList, reachSize_clean c.2 h.1,
      reachSizeList_clean rest h.2]
end

theorem rootSize_clean (n : Node) (h : n.clean = true) :
    n.rootSize = n.treeSize % 2 ^ 64 := by
  have hr := reachSize_clean n h
  unfold Node.rootSize
  cases n with
  | file e s => cases e <;> simp_all [Node.clean, Node.info]
  | special e s => cases e <;> simp_all [Node.clean, Node.info]
  | dir e l s cs => cases e <;> simp_all [Node.clean, Node.info]

theorem count_lookup_le (p : Path) :
    ∀ (t n : Node), t.lookup p = some n → n.count ≤ t.count := by
  induction p with
  | nil =>
    intro t n h
    cases t <;> simp [Node.lookup] at h <;> subst h <;> exact Nat.le_refl _
  | cons name rest ih =>
    intro t n h
    cases t with
    | file e s => simp [Node.lookup] at h
    | special e s => simp [Node.lookup] at h
    | dir e l s cs =>
      simp only [Node.lookup] at h
      cases hf : findChild name cs with
      | none => rw [hf] at h; simp at h
      | some c =>
        rw [hf] at h
        have h1 := ih c n h
        have h2 := count_le_of_mem cs (name, c) (mem_of_findChild name cs c hf)
        simp only [Node.count]
        simp only at h2
        omega

theorem firstErr_none (cs : List (String × Node))
    (h : ∀ c ∈ cs, statable c = true) : firstErr cs = none := by
  induction cs with
  | nil => rfl
  | cons c rest ih =>
    have hc := h c (List.mem_cons_self _ _)
    simp only [statable] at hc
    simp only [firstErr]
    cases hinfo : c.2.info with
    | error e => simp [hinfo] at hc
    | ok st => exact ih (fun d hd => h d (List.mem_cons_of_mem _ hd))

theorem fatalErr_none (cs : List (String × Node))
    (h : ∀ c ∈ cs, statable c = true) : fatalErr cs = none := by
  induction cs with
  | nil => rfl
  | cons c rest ih =>
    have hc := h c (List.mem_cons_self _ _)
    simp only [statable] at hc
    simp only [fatalErr]
    cases hinfo : c.2.info with
    | error e => simp [hinfo] at hc
    | ok st => exact ih (fun d hd => h d (List.mem_cons_of_mem _ hd))

theorem rootSize_statable (c : String × Node) (h : statable c = true) :
    c.2.rootSize = c.2.reachSize % 2 ^ 64 := by
  unfold statable at h
  unfold Node.rootSize
  cases hinfo : c.2.info with
  | error e => simp [hinfo] at h
  | ok st => rfl

theorem isRegular_of_not_isDir (n : Node) (h : n.isRegular = true ∨ n.isDir = true) :
    (!n.isDir) = n.isRegular := by
  cases n <;> simp_all [Node.isRegular, Node.isDir]

/-! ## The claims on the traversal and on the listing -/

/-- C1: on a finite tree in which every directory can be listed and every entry can be
stat-ed, `getDirectorySizeIter root` returns, given fuel for the nodes under the root, the
tree size of the root as an unsigned 64-bit total: the byte length of a regular file, 0
for a root that is neither a regular file nor a directory, and for a directory the sum of
the byte lengths of the regular files at every depth, whatever the shape of the tree and
the order of the children in each listing. -/
theorem getDirectorySizeIter_treeSize (t n : Node) (root : Path) (fuel : Nat)
    (hwf : t.wf = true) (hroot : t.lookup root = some n) (hclean : n.clean = true)
    (hfuel : n.count ≤ fuel) :
    getDirectorySizeIter (fsOf t) fuel root = some (n.treeSize % 2 ^ 64) := by
  rw [getDirectorySizeIter_lookup t n root fuel hwf hroot hfuel, rootSize_clean n hclean]

theorem getDirectorySizeIter_treeSize_witness :
    exampleTree.wf = true ∧ exampleTree.lookup ["sub"] =
        some (.dir none none 4096
          [("x", .file none 400), ("deep", .dir none none 4096 [("y", .file none 600)])]) ∧
      getDirectorySizeIter (fsOf exampleTree) 4 ["sub"] = some 1000 :=
  ⟨by decide, rfl,
    (getDirectorySizeIter_treeSize exampleTree _ ["sub"] 4 (by decide) rfl (by decide)
      (by decide)).trans (by decide)⟩

/-- C2: `getDirectorySizeIter` never fails. On every finite tree, with any set of nodes
that cannot be stat-ed and directories that cannot be listed, it returns (given fuel for
the nodes of the tree) 0 when the root is missing or cannot be stat-ed, and otherwise the
unsigned 64-bit sum of the byte lengths of the regular files reachable from the root
through directories whose listing succeeds: a directory whose listing fails and a file
whose information cannot be read contribute 0, all other files are counted. -/
theorem getDirectorySizeIter_reachSize (t : Node) (root : Path) (fuel : Nat)
    (hwf : t.wf = true) (hfuel : t.count ≤ fuel) :
    getDirectorySizeIter (fsOf t) fuel root
      = some (match t.lookup root with
          | none => 0
          | some n =>
            match n.info with
            | .error _ => 0
            | .ok _ => n.reachSize % 2 ^ 64) := by
  cases hroot : t.lookup root with
  | none => simp [getDirectorySizeIter, fsOf, hroot]
  | some n =>
    have hle := count_lookup_le root t n hroot
    rw [getDirectorySizeIter_lookup t n root fuel hwf hroot (by omega)]
    rfl

theorem getDirectorySizeIter_reachSize_witness :
    brokenTree.wf = true ∧ brokenTree.count ≤ 8 ∧
      getDirectorySizeIter (fsOf brokenTree) 8 [] = some 12 :=
  ⟨by decide, by decide,
    (getDirectorySizeIter_reachSize brokenTree [] 8 (by decide) (by decide)).trans
      (by decide)⟩

/-- C3: without directories (`dir = false`), for a target directory whose immediate
children are all regular files or directories and can all be stat-ed, `getByLargest`
returns exactly one `Entry` (name, byte length as `uint64`) per regular-file child, in
listing order, and none for a subdirectory, whatever the subdirectories contain;
`lines` is not read by `getByLargest`. -/
theorem getByLargest_files_only (t : Node) (target : Path) (e : Option Err) (s fuel : Nat)
    (cs : List (String × Node)) (sched : Schedule) (cwd : Except Err Path)
    (args : List Path) (hwf : t.wf = true) (htarget : resolveTarget cwd args = .ok target)
    (hp : t.lookup target = some (.dir e none s cs))
    (hkids : ∀ c ∈ cs, statable c = true ∧ (c.2.isRegular = true ∨ c.2.isDir = true)) :
    getByLargest (fsOf t) fuel sched cwd args false
      = some (.ok ((cs.filter (fun c => c.2.isRegular)).map
          (fun c => (⟨c.1, c.2.size % 2 ^ 64⟩ : Entry)))) := by
  rw [getByLargest_files t target e s fuel cs sched cwd args hwf htarget hp,
    firstErr_none cs (fun c hc => (hkids c hc).1)]
  have hfilter : cs.filter (fun c => !c.2.isDir) = cs.filter (fun c => c.2.isRegular) :=
    List.filter_congr (fun c hc => isRegular_of_not_isDir c.2 (hkids c hc).2)
  simp only [hfilter]
  congr 2
  apply List.map_congr_left
  intro c hc
  have hreg := (List.mem_filter.mp hc).2
  have hnd : c.2.isDir = false := by
    cases h : c.2 <;> simp_all [Node.isRegular, Node.isDir]
  simp [childEntry, hnd]

theorem getByLargest_files_only_witness :
    exampleTree.wf = true ∧ resolveTarget (.ok []) [] = .ok [] ∧
      getByLargest (fsOf exampleTree) 0 ⟨[], []⟩ (.ok []) [] false
        = some (.ok [⟨"a", 10⟩, ⟨"b", 20⟩, ⟨"c", 30⟩]) :=
  ⟨by decide, rfl,
    (getByLargest_files_only exampleTree [] none 4096 0 _ ⟨[], []⟩ (.ok []) []
      (by decide) rfl rfl (by decide)).trans rfl⟩

/-- With every append taken as one atomic step, with directories (`dir = true`), for a
target directory whose immediate children are all regular files or directories and can
all be stat-ed, and for every order in which the goroutines finish, `getByLargest`
returns a rearrangement of one `Entry` per immediate child: the name with the byte
length (as `uint64`) for a regular file, the name with the result of
`getDirectorySizeIter` on the child's full path for a subdirectory; the number of
entries is the number of children. -/
theorem getByLargest_with_dirs (t : Node) (target : Path) (e : Option Err) (s fuel : Nat)
    (cs : List (String × Node)) (sched : Schedule) (cwd : Except Err Path)
    (args : List Path) (hwf : t.wf = true) (htarget : resolveTarget cwd args = .ok target)
    (hp : t.lookup target = some (.dir e none s cs))
    (hfuel : (Node.dir e none s cs).count ≤ fuel)
    (hkids : ∀ c ∈ cs, statable c = true ∧ (c.2.isRegular = true ∨ c.2.isDir = true)) :
    ∃ entries, getByLargest (fsOf t) fuel sched cwd args true = some (.ok entries) ∧
      entries.Perm (cs.map (fun c =>
        if c.2.isDir then
          (⟨c.1, (getDirectorySizeIter (fsOf t) fuel (join target c.1)).getD 0⟩ : Entry)
        else ⟨c.1, c.2.size % 2 ^ 64⟩)) ∧
      entries.length = cs.length ∧
      ∀ c ∈ cs, c.2.isDir = true →
        getDirectorySizeIter (fsOf t) fuel (join target c.1)
          = some (c.2.reachSize % 2 ^ 64) := by
  obtain ⟨r, hr, hspec⟩ :=
    getByLargest_dirs t target e s fuel cs sched cwd args hwf htarget hp hfuel
  rw [fatalErr_none cs (fun c hc => (hkids c hc).1)] at hspec
  obtain ⟨entries, hre, hperm⟩ := hspec
  subst hre
  have hall : cs.filter statable = cs :=
    List.filter_eq_self.mpr (fun c hc => (hkids c hc).1)
  rw [hall] at hperm
  have hmap : cs.map childEntry = cs.map (fun c =>
      if c.2.isDir then
        (⟨c.1, (getDirectorySizeIter (fsOf t) fuel (join target c.1)).getD 0⟩ : Entry)
      else ⟨c.1, c.2.size % 2 ^ 64⟩) := by
    apply List.map_congr_left
    intro c hc
    rw [← listedEntry_child t target e none s fuel cs hwf hp hfuel c hc]
    rfl
  refine ⟨entries, hr, hmap ▸ hperm, ?_, ?_⟩
  · simpa using hperm.length_eq
  · intro c hc _
    rw [child_size t target e none s fuel cs hwf hp hfuel c hc,
      rootSize_statable c (hkids c hc).1]

theorem getByLargest_with_dirs_witness :
    exampleTree.wf = true ∧
      (∃ entries,
        getByLargest (fsOf exampleTree) 8 ⟨[], []⟩ (.ok []) [] true = some (.ok entries) ∧
        entries.Perm [⟨"a", 10⟩, ⟨"b", 20⟩, ⟨"c", 30⟩, ⟨"sub", 1000⟩] ∧
        entries.length = 4) := by
  obtain ⟨entries, h1, h2, h3, _⟩ :=
    getByLargest_with_dirs exampleTree [] none 4096 8 _ ⟨[], []⟩ (.ok []) []
      (by decide) rfl rfl (by decide) (by decide)
  exact ⟨by decide, entries, h1, h2, h3⟩

theorem dirs_fail_at_node (t n : Node) (target : Path) (fuel : Nat) (sched : Schedule)
    (cwd : Except Err Path) (args : List Path) (hwf : t.wf = true)
    (htarget : resolveTarget cwd args = .ok target) (hp : t.lookup target = some n)
    (hfuel : n.count ≤ fuel) :
    ((∃ err, getByLargest (fsOf t) fuel sched cwd args true = some (.error err)) ↔
      ((∃ err, (fsOf t).readDir target = .error err) ∨
        (∃ err, fatalErr n.children = some err))) ∧
    ((∀ err, (fsOf t).readDir target ≠ .error err) → fatalErr n.children = none →
      ∃ entries, getByLargest (fsOf t) fuel sched cwd args true = some (.ok entries) ∧
        entries.Perm ((n.children.filter statable).map childEntry)) := by
  have hread := readDir_fsOf t n target hp
  have hfail : ∀ err, n.list = .error err →
      getByLargest (fsOf t) fuel sched cwd args true = some (.error err) := by
    intro err herr
    unfold getByLargest
    rw [htarget]
    simp only [hread, herr]
  cases n with
  | file e s =>
    have h := hfail .notDir rfl
    refine ⟨⟨fun _ => Or.inl ⟨.notDir, by rw [hread]; rfl⟩, fun _ => ⟨.notDir, h⟩⟩, ?_⟩
    intro hno
    exact absurd (by rw [hread]; rfl) (hno .notDir)
  | special e s =>
    have h := hfail .notDir rfl
    refine ⟨⟨fun _ => Or.inl ⟨.notDir, by rw [hread]; rfl⟩, fun _ => ⟨.notDir, h⟩⟩, ?_⟩
    intro hno
    exact absurd (by rw [hread]; rfl) (hno .notDir)
  | dir e l s cs =>
    cases l with
    | some le =>
      have h := hfail le rfl
      refine ⟨⟨fun _ => Or.inl ⟨le, by rw [hread]; rfl⟩, fun _ => ⟨le, h⟩⟩, ?_⟩
      intro hno
      exact absurd (by rw [hread]; rfl) (hno le)
    | none =>
      obtain ⟨r, hr, hspec⟩ :=
        getByLargest_dirs t target e s fuel cs sched cwd args hwf htarget hp hfuel
      have hlist : (fsOf t).readDir target = .ok (cs.map toDirEntry) := by
        rw [hread]; rfl
      simp only [Node.children]
      cases hf : fatalErr cs with
      | some err =>
        simp only [hf] at hspec
        subst hspec
        refine ⟨⟨fun _ => Or.inr ⟨err, rfl⟩, fun _ => ⟨err, hr⟩⟩, ?_⟩
        intro _ hnone
        cases hnone
      | none =>
        simp only [hf] at hspec
        obtain ⟨entries, hre, hperm⟩ := hspec
        subst hre
        refine ⟨⟨?_, ?_⟩, fun _ _ => ⟨entries, hr, hperm⟩⟩
        · rintro ⟨err, herr⟩
          rw [hr] at herr
          cases herr
        · rintro (⟨err, herr⟩ | ⟨err, herr⟩)
          · rw [hlist] at herr
            cases herr
          · cases herr

/-- C5, as the code has it: with directories (`dir = true`) and every append taken as
one atomic step, `getByLargest` fails exactly when the target cannot be listed (it is
missing, not a directory or unreadable) or the stat of an immediate child fails with an
error other than "does not exist"; when it does not fail, the children whose stat fails
with "does not exist" are skipped and the entries of all other children are returned. -/
theorem getByLargest_fails_iff (t : Node) (target : Path) (fuel : Nat) (sched : Schedule)
    (cwd : Except Err Path) (args : List Path) (hwf : t.wf = true)
    (htarget : resolveTarget cwd args = .ok target) (hfuel : t.count ≤ fuel) :
    ((∃ err, getByLargest (fsOf t) fuel sched cwd args true = some (.error err)) ↔
      ((∃ err, (fsOf t).readDir target = .error err) ∨
        (∃ err, fatalErr (childrenAt t target) = some err))) ∧
    ((∀ err, (fsOf t).readDir target ≠ .error err) →
      fatalErr (childrenAt t target) = none →
      ∃ entries, getByLargest (fsOf t) fuel sched cwd args true = some (.ok entries) ∧
        entries.Perm (((childrenAt t target).filter statable).map childEntry)) := by
  cases hp : t.lookup target with
  | none =>
    have hread : (fsOf t).readDir target = .error .notExist := by simp [fsOf, hp]
    have hrun : getByLargest (fsOf t) fuel sched cwd args true = some (.error .notExist) := by
      unfold getByLargest
      rw [htarget]
      simp only [hread]
    refine ⟨⟨fun _ => Or.inl ⟨.notExist, hread⟩, fun _ => ⟨.notExist, hrun⟩⟩, ?_⟩
    intro hno
    exact absurd hread (hno .notExist)
  | some n =>
    have hle := count_lookup_le target t n hp
    have h := dirs_fail_at_node t n target fuel sched cwd args hwf htarget hp
      (by omega)
    simpa [childrenAt, hp] using h

theorem getByLargest_fails_iff_witness :
    brokenTree.wf = true ∧ brokenTree.count ≤ 8 ∧
      (∃ entries,
        getByLargest (fsOf brokenTree) 8 ⟨[], []⟩ (.ok []) [] true = some (.ok entries) ∧
        entries.Perm [⟨"ok", 7⟩, ⟨"locked", 0⟩, ⟨"open", 5⟩, ⟨"sock", 9⟩]) :=
  ⟨by decide, by decide,
    (getByLargest_fails_iff brokenTree [] 8 ⟨[], []⟩ (.ok []) [] (by decide)
      rfl (by decide)).2 (by intro err h; cases h) rfl⟩

/-- C5 as stated fails: the target directory is listed without error, the stat of the
child `b` is refused, and the run with directories dies with that error instead of
skipping the child. -/
theorem getByLargest_permission_fatal :
    (fsOf deniedTree).readDir [] = .ok (deniedTree.children.map toDirEntry) ∧
      (fsOf deniedTree).stat ["b"] = .error .permission ∧
      getByLargest (fsOf deniedTree) 3 ⟨[], []⟩ (.ok []) [] true
        = some (.error .permission) :=
  ⟨rfl, rfl, rfl⟩

/-- C9, as the code has it: for both values of `dir`, `getByLargest` ends, and every
`Entry` it returns is that of an immediate child that can be stat-ed and is either not a
directory, regular or not, with `Size` the size `os.Stat` reports for it (as `uint64`),
or, only when `dir` is true, a directory, with `Size` the unsigned 64-bit total of the
regular files reachable below it; the size of a directory entry itself is never used. -/
theorem getByLargest_entry_origin (t : Node) (target : Path) (e : Option Err) (s fuel : Nat)
    (cs : List (String × Node)) (sched : Schedule) (cwd : Except Err Path)
    (args : List Path) (dir : Bool) (hwf : t.wf = true)
    (htarget : resolveTarget cwd args = .ok target)
    (hp : t.lookup target = some (.dir e none s cs))
    (hfuel : (Node.dir e none s cs).count ≤ fuel) :
    ∃ r, getByLargest (fsOf t) fuel sched cwd args dir = some r ∧
      ∀ entries, r = .ok entries → ∀ x ∈ entries, ∃ c ∈ cs,
        statable c = true ∧ x.Name = c.1 ∧
          ((c.2.isDir = false ∧ x.Size = c.2.size % 2 ^ 64) ∨
            (dir = true ∧ c.2.isDir = true ∧ x.Size = c.2.reachSize % 2 ^ 64)) := by
  have hchild : ∀ c ∈ cs, statable c = true →
      (childEntry c).Name = c.1 ∧
        ((c.2.isDir = false ∧ (childEntry c).Size = c.2.size % 2 ^ 64) ∨
          (c.2.isDir = true ∧ (childEntry c).Size = c.2.reachSize % 2 ^ 64)) := by
    intro c _ hs
    refine ⟨rfl, ?_⟩
    by_cases hd : c.2.isDir = true
    · exact Or.inr ⟨hd, by simp [childEntry, hd, rootSize_statable c hs]⟩
    · exact Or.inl ⟨by simpa using hd, by simp [childEntry, hd]⟩
  cases dir with
  | false =>
    refine ⟨_, getByLargest_files t target e s fuel cs sched cwd args hwf htarget hp, ?_⟩
    intro entries hentries x hx
    cases hf : firstErr cs with
    | some err => rw [hf] at hentries; cases hentries
    | none =>
      rw [hf] at hentries
      simp only [Except.ok.injEq] at hentries
      subst hentries
      obtain ⟨c, hc, rfl⟩ := List.mem_map.mp hx
      obtain ⟨hmem, hnd⟩ := List.mem_filter.mp hc
      have hs : statable c = true := by
        have hall : ∀ (l : List (String × Node)), firstErr l = none →
            ∀ d ∈ l, statable d = true := by
          intro l
          induction l with
          | nil => intro _ d hd; cases hd
          | cons a rest ih =>
            intro hfe d hd
            simp only [firstErr] at hfe
            cases hinfo : a.2.info with
            | error err => rw [hinfo] at hfe; cases hfe
            | ok st =>
              rw [hinfo] at hfe
              rcases List.mem_cons.mp hd with h | h
              · subst h; simp [statable, hinfo]
              · exact ih hfe d h
        exact hall cs hf c hmem
      refine ⟨c, hmem, hs, rfl, Or.inl ⟨by simpa using hnd, ?_⟩⟩
      have hnd2 : c.2.isDir = false := by simpa using hnd
      simp [childEntry, hnd2]
  | true =>
    obtain ⟨r, hr, hspec⟩ :=
      getByLargest_dirs t target e s fuel cs sched cwd args hwf htarget hp hfuel
    refine ⟨r, hr, ?_⟩
    intro entries hentries x hx
    subst hentries
    cases hf : fatalErr cs with
    | some err => rw [hf] at hspec; cases hspec
    | none =>
      rw [hf] at hspec
      obtain ⟨entries2, hre, hperm⟩ := hspec
      simp only [Except.ok.injEq] at hre
      subst hre
      obtain ⟨c, hc, rfl⟩ := List.mem_map.mp (hperm.subset hx)
      obtain ⟨hmem, hs⟩ := List.mem_filter.mp hc
      obtain ⟨hname, hsize⟩ := hchild c hmem hs
      refine ⟨c, hmem, hs, hname, ?_⟩
      rcases hsize with h | h
      · exact Or.inl h
      · exact Or.inr ⟨rfl, h⟩

theorem getByLargest_entry_origin_witness :
    pipeTree.wf = true ∧
      (∃ r, getByLargest (fsOf pipeTree) 3 ⟨[], []⟩ (.ok []) [] true = some r ∧
        ∀ entries, r = .ok entries → ∀ x ∈ entries, ∃ c ∈ pipeTree.children,
          statable c = true ∧ x.Name = c.1 ∧
            ((c.2.isDir = false ∧ x.Size = c.2.size % 2 ^ 64) ∨
              (true = true ∧ c.2.isDir = true ∧ x.Size = c.2.reachSize % 2 ^ 64))) :=
  ⟨by decide,
    getByLargest_entry_origin pipeTree [] none 4096 3 _ ⟨[], []⟩ (.ok []) [] true
      (by decide) rfl rfl (by decide)⟩

/-- C9 as stated fails: a named pipe among the children, which is neither a regular file
nor a directory, has an `Entry` of its own in the result, in both modes. -/
theorem getByLargest_lists_special :
    (fsOf pipeTree).stat ["fifo"] = .ok ⟨false, false, 0⟩ ∧
      getByLargest (fsOf pipeTree) 3 ⟨[], []⟩ (.ok []) [] false
        = some (.ok [⟨"a", 10⟩, ⟨"fifo", 0⟩]) ∧
      getByLargest (fsOf pipeTree) 3 ⟨[], []⟩ (.ok []) [] true
        = some (.ok [⟨"a", 10⟩, ⟨"fifo", 0⟩]) :=
  ⟨rfl, rfl, rfl⟩

/-! ## Sorting and printing -/

theorem printLoop_eq_take (lines : Int) :
    ∀ (l : List Entry) (i : Nat), printLoop lines i l = l.take (lines - i).toNat := by
  intro l
  induction l with
  | nil => intro i; simp [printLoop]
  | cons x rest ih =>
    intro i
    by_cases h : (i : Int) ≥ lines
    · have h0 : (lines - i).toNat = 0 := by omega
      simp [printLoop, h, h0]
    · obtain ⟨k, hk⟩ : ∃ k, (lines - i).toNat = k + 1 := ⟨(lines - i).toNat - 1, by omega⟩
      have hk2 : (lines - ((i + 1 : Nat) : Int)).toNat = k := by omega
      simp only [printLoop, h, if_false, ih (i + 1), hk, hk2, List.take_succ_cons]

theorem printByLargest_eq_take (sortSlice : (Entry → Entry → Bool) → List Entry → List Entry)
    (lines : Int) (largest : List Entry) :
    printByLargest sortSlice lines largest
      = (sortSlice sizeGreater largest).take lines.toNat := by
  unfold printByLargest
  rw [printLoop_eq_take]
  simp

theorem sizeGreater_false (a b : Entry) : sizeGreater b a = false ↔ b.Size ≤ a.Size := by
  simp [sizeGreater]

theorem sorted_of_contract (sortSlice : (Entry → Entry → Bool) → List Entry → List Entry)
    (hsort : SortContract sortSlice) (l : List Entry) :
    (sortSlice sizeGreater l).Pairwise (fun a b => b.Size ≤ a.Size) :=
  (hsort l).2.imp (fun h => (sizeGreater_false _ _).mp h)

theorem insertBack_perm (less : Entry → Entry → Bool) (x : Entry) :
    ∀ l : List Entry, (insertBack less x l).Perm (x :: l) := by
  intro l
  induction l with
  | nil => simp [insertBack]
  | cons y ys ih =>
    by_cases h : less x y = true
    · simp only [insertBack, h, if_true]
      exact (ih.cons y).trans (List.Perm.swap x y ys)
    · simp [insertBack, h]

theorem insertBack_sorted (x : Entry) :
    ∀ l : List Entry, l.Pairwise (fun a b => a.Size ≤ b.Size) →
      (insertBack sizeGreater x l).Pairwise (fun a b => a.Size ≤ b.Size) := by
  intro l
  induction l with
  | nil => intro _; simp [insertBack]
  | cons y ys ih =>
    intro hl
    obtain ⟨hy, hys⟩ := List.pairwise_cons.mp hl
    by_cases h : sizeGreater x y = true
    · simp only [insertBack, h, if_true]
      refine List.pairwise_cons.mpr ⟨?_, ih hys⟩
      intro z hz
      rcases List.mem_cons.mp ((insertBack_perm sizeGreater x ys).subset hz) with hzx | hzy
      · subst hzx
        simp [sizeGreater] at h
        omega
      · exact hy z hzy
    · simp only [insertBack, h, if_false]
      have hxy : x.Size ≤ y.Size := by
        simp [sizeGreater] at h
        exact h
      refine List.pairwise_cons.mpr ⟨?_, hl⟩
      intro z hz
      rcases List.mem_cons.mp hz with hzy | hzy
      · subst hzy; exact hxy
      · exact Nat.le_trans hxy (hy z hzy)

theorem foldl_insertBack (less : Entry → Entry → Bool) :
    ∀ (l acc : List Entry),
      (l.foldl (fun sorted x => insertBack less x sorted) acc).Perm (acc ++ l) := by
  intro l
  induction l with
  | nil => intro acc; simp
  | cons x rest ih =>
    intro acc
    simp only [List.foldl_cons]
    refine (ih _).trans ?_
    refine ((insertBack_perm less x acc).append_right rest).trans ?_
    exact List.perm_middle.symm

theorem foldl_insertBack_sorted :
    ∀ (l acc : List Entry), acc.Pairwise (fun a b => a.Size ≤ b.Size) →
      (l.foldl (fun sorted x => insertBack sizeGreater x sorted) acc).Pairwise
        (fun a b => a.Size ≤ b.Size) := by
  intro l
  induction l with
  | nil => intro acc h; simpa using h
  | cons x rest ih =>
    intro acc h
    simp only [List.foldl_cons]
    exact ih _ (insertBack_sorted x acc h)

/-- The insertion sort of Go's `sort` package gives what the program relies on. -/
theorem insertionSort_contract : SortContract insertionSort := by
  intro l
  constructor
  · unfold insertionSort
    exact (List.reverse_perm _).trans (by simpa using foldl_insertBack sizeGreater l [])
  · unfold insertionSort
    rw [List.pairwise_reverse]
    exact (foldl_insertBack_sorted l [] List.Pairwise.nil).imp
      (fun h => (sizeGreater_false _ _).mpr h)

/-- C6: for every collection and every integer `lines`, `printByLargest` prints exactly
`min (max lines 0) (number of entries)` lines; the model has no indexing, the loop ranges
over the slice. The printed entries followed by some list `rest` of unprinted ones are a
rearrangement of the collection, the printed sizes never increase, and every printed
entry is at least as large as every entry not printed. -/
theorem printByLargest_top (sortSlice : (Entry → Entry → Bool) → List Entry → List Entry)
    (hsort : SortContract sortSlice) (lines : Int) (largest : List Entry) :
    (printByLargest sortSlice lines largest).length
        = min (max lines 0).toNat largest.length ∧
      (printByLargest sortSlice lines largest).Pairwise (fun a b => b.Size ≤ a.Size) ∧
      ∃ rest, (printByLargest sortSlice lines largest ++ rest).Perm largest ∧
        ∀ a ∈ printByLargest sortSlice lines largest, ∀ b ∈ rest, b.Size ≤ a.Size := by
  have hsorted := sorted_of_contract sortSlice hsort largest
  have hperm := (hsort largest).1
  rw [printByLargest_eq_take]
  refine ⟨?_, ?_, (sortSlice sizeGreater largest).drop lines.toNat, ?_, ?_⟩
  · rw [List.length_take, hperm.length_eq]
    have : (max lines 0).toNat = lines.toNat := by omega
    rw [this]
  · exact hsorted.sublist (List.take_sublist _ _)
  · rw [List.take_append_drop]
    exact hperm
  · have h := hsorted
    rw [← List.take_append_drop lines.toNat (sortSlice sizeGreater largest),
      List.pairwise_append] at h
    exact h.2.2

theorem printByLargest_top_witness :
    SortContract insertionSort ∧
      printByLargest insertionSort 1 [⟨"a", 10⟩, ⟨"b", 20⟩, ⟨"c", 30⟩, ⟨"sub", 1000⟩]
        = [⟨"sub", 1000⟩] ∧
      (printByLargest insertionSort 9 [⟨"a", 10⟩, ⟨"b", 20⟩, ⟨"c", 30⟩, ⟨"sub", 1000⟩]).length
        = min (max (9 : Int) 0).toNat
            [(⟨"a", 10⟩ : Entry), ⟨"b", 20⟩, ⟨"c", 30⟩, ⟨"sub", 1000⟩].length :=
  ⟨insertionSort_contract, by decide,
    (printByLargest_top insertionSort insertionSort_contract 9
      [⟨"a", 10⟩, ⟨"b", 20⟩, ⟨"c", 30⟩, ⟨"sub", 1000⟩]).1⟩

theorem sizes_eq_of_perm (sortSlice : (Entry → Entry → Bool) → List Entry → List Entry)
    (hsort : SortContract sortSlice) (e1 e2 : List Entry) (h : e1.Perm e2) :
    (sortSlice sizeGreater e1).map Entry.Size = (sortSlice sizeGreater e2).map Entry.Size := by
  have hp : ((sortSlice sizeGreater e1).map Entry.Size).Perm
      ((sortSlice sizeGreater e2).map Entry.Size) :=
    (((hsort e1).1.trans h).trans (hsort e2).1.symm).map _
  have h1 : ((sortSlice sizeGreater e1).map Entry.Size).Sorted (fun a b => b ≤ a) :=
    List.pairwise_map.mpr (sorted_of_contract sortSlice hsort e1)
  have h2 : ((sortSlice sizeGreater e2).map Entry.Size).Sorted (fun a b => b ≤ a) :=
    List.pairwise_map.mpr (sorted_of_contract sortSlice hsort e2)
  haveI : IsAntisymm Nat (fun a b => b ≤ a) := ⟨fun a b h1 h2 => Nat.le_antisymm h2 h1⟩
  exact List.eq_of_perm_of_sorted hp h1 h2

theorem strict_of_nodup (l : List Entry) (hs : l.Pairwise (fun a b => b.Size ≤ a.Size))
    (hn : (l.map Entry.Size).Nodup) : l.Pairwise (fun a b => b.Size < a.Size) := by
  have hne : l.Pairwise (fun a b => a.Size ≠ b.Size) := List.pairwise_map.mp hn
  exact (hs.and hne).imp (fun h => Nat.lt_of_le_of_ne h.1 (Ne.symm h.2))

theorem sorted_eq_of_perm (sortSlice : (Entry → Entry → Bool) → List Entry → List Entry)
    (hsort : SortContract sortSlice) (e1 e2 : List Entry) (h : e1.Perm e2)
    (hn : (e1.map Entry.Size).Nodup) :
    sortSlice sizeGreater e1 = sortSlice sizeGreater e2 := by
  have hp : (sortSlice sizeGreater e1).Perm (sortSlice sizeGreater e2) :=
    ((hsort e1).1.trans h).trans (hsort e2).1.symm
  have hn1 : ((sortSlice sizeGreater e1).map Entry.Size).Nodup :=
    (((hsort e1).1.map Entry.Size).nodup_iff).mpr hn
  have hn2 : ((sortSlice sizeGreater e2).map Entry.Size).Nodup :=
    ((hp.map Entry.Size).nodup_iff).mp hn1
  have h1 := strict_of_nodup _ (sorted_of_contract sortSlice hsort e1) hn1
  have h2 := strict_of_nodup _ (sorted_of_contract sortSlice hsort e2) hn2
  haveI : IsAntisymm Entry (fun a b => b.Size < a.Size) :=
    ⟨fun a b h1 h2 => absurd h1 (Nat.lt_asymm h2)⟩
  exact List.eq_of_perm_of_sorted hp h1 h2

theorem print_sizes_of_perm (sortSlice : (Entry → Entry → Bool) → List Entry → List Entry)
    (hsort : SortContract sortSlice) (lines : Int) (e1 e2 : List Entry) (h : e1.Perm e2) :
    (printByLargest sortSlice lines e1).map Entry.Size
        = (printByLargest sortSlice lines e2).map Entry.Size ∧
      ((e1.map Entry.Size).Nodup →
        printByLargest sortSlice lines e1 = printByLargest sortSlice lines e2) := by
  simp only [printByLargest_eq_take, List.map_take]
  refine ⟨by rw [sizes_eq_of_perm sortSlice hsort e1 e2 h], fun hn => ?_⟩
  rw [sorted_eq_of_perm sortSlice hsort e1 e2 h hn]

/-! ## The claims on repeated runs, on the flags and on the mutex -/

/-- C8, as the code has it: on an unchanged tree, for both values of `dir`, every
`lines` and every two orders in which the goroutines finish (appends taken as atomic
steps), two runs of `getByLargest` either die with the same error or return
rearrangements of one another; `printByLargest` then prints, in both, entries with the
same sizes in the same order, and the same entries whenever no two entries have the same
size. -/
theorem getByLargest_twice (sortSlice : (Entry → Entry → Bool) → List Entry → List Entry)
    (hsort : SortContract sortSlice) (t : Node) (target : Path) (e : Option Err)
    (s fuel : Nat) (cs : List (String × Node)) (sched1 sched2 : Schedule)
    (cwd : Except Err Path) (args : List Path) (dir : Bool) (lines : Int)
    (hwf : t.wf = true) (htarget : resolveTarget cwd args = .ok target)
    (hp : t.lookup target = some (.dir e none s cs))
    (hfuel : (Node.dir e none s cs).count ≤ fuel) :
    ∃ r1 r2, getByLargest (fsOf t) fuel sched1 cwd args dir = some r1 ∧
      getByLargest (fsOf t) fuel sched2 cwd args dir = some r2 ∧
      match r1, r2 with
      | .ok e1, .ok e2 =>
        e1.Perm e2 ∧
        (printByLargest sortSlice lines e1).map Entry.Size
          = (printByLargest sortSlice lines e2).map Entry.Size ∧
        ((e1.map Entry.Size).Nodup →
          printByLargest sortSlice lines e1 = printByLargest sortSlice lines e2)
      | .error a, .error b => a = b
      | _, _ => False := by
  cases dir with
  | false =>
    refine ⟨_, _, getByLargest_files t target e s fuel cs sched1 cwd args hwf htarget hp,
      getByLargest_files t target e s fuel cs sched2 cwd args hwf htarget hp, ?_⟩
    cases firstErr cs with
    | some err => rfl
    | none =>
      exact ⟨List.Perm.refl _, print_sizes_of_perm sortSlice hsort lines _ _ (List.Perm.refl _)⟩
  | true =>
    obtain ⟨r1, hr1, hs1⟩ :=
      getByLargest_dirs t target e s fuel cs sched1 cwd args hwf htarget hp hfuel
    obtain ⟨r2, hr2, hs2⟩ :=
      getByLargest_dirs t target e s fuel cs sched2 cwd args hwf htarget hp hfuel
    refine ⟨r1, r2, hr1, hr2, ?_⟩
    cases hf : fatalErr cs with
    | some err =>
      rw [hf] at hs1 hs2
      subst hs1
      subst hs2
      rfl
    | none =>
      rw [hf] at hs1 hs2
      obtain ⟨e1, rfl, hp1⟩ := hs1
      obtain ⟨e2, rfl, hp2⟩ := hs2
      have hperm : e1.Perm e2 := hp1.trans hp2.symm
      exact ⟨hperm, print_sizes_of_perm sortSlice hsort lines e1 e2 hperm⟩

theorem getByLargest_twice_witness :
    SortContract insertionSort ∧ brokenTree.wf = true ∧
      ∃ r1 r2,
        getByLargest (fsOf brokenTree) 8 ⟨[], [0]⟩ (.ok []) [] true = some r1 ∧
        getByLargest (fsOf brokenTree) 8 ⟨[[], [], [], [], [1]], []⟩ (.ok []) [] true
          = some r2 ∧
        match r1, r2 with
        | .ok e1, .ok e2 =>
          e1.Perm e2 ∧
          (printByLargest insertionSort 2 e1).map Entry.Size
            = (printByLargest insertionSort 2 e2).map Entry.Size ∧
          ((e1.map Entry.Size).Nodup →
            printByLargest insertionSort 2 e1 = printByLargest insertionSort 2 e2)
        | .error a, .error b => a = b
        | _, _ => False :=
  ⟨insertionSort_contract, by decide,
    getByLargest_twice insertionSort insertionSort_contract brokenTree [] none 4096 8 _
      ⟨[], [0]⟩ ⟨[[], [], [], [], [1]], []⟩ (.ok []) [] true 2 (by decide) rfl rfl
      (by decide)⟩

/-- C8 as stated fails: two subdirectories of the same size, finishing in the order
`a`, `b` in one run and `b`, `a` in the other, give the same entries in two orders, and
with `lines = 1` the first run prints `a` and the second prints `b`. -/
theorem getByLargest_twice_differs :
    getByLargest (fsOf twinTree) 3 ⟨[], [0]⟩ (.ok []) [] true
        = some (.ok [⟨"a", 0⟩, ⟨"b", 0⟩]) ∧
      getByLargest (fsOf twinTree) 3 ⟨[], [1]⟩ (.ok []) [] true
        = some (.ok [⟨"b", 0⟩, ⟨"a", 0⟩]) ∧
      printByLargest insertionSort 1 [⟨"a", 0⟩, ⟨"b", 0⟩] = [⟨"a", 0⟩] ∧
      printByLargest insertionSort 1 [⟨"b", 0⟩, ⟨"a", 0⟩] = [⟨"b", 0⟩] :=
  ⟨rfl, rfl, by decide, by decide⟩

/-- C10: the usage text says that directories are included by default and that `-d`
leaves them out; the program does the opposite. Without a flag `dir` is false and the
largest entry printed for the example tree is the file `c` of 30 bytes, the subdirectory
of 1000 bytes being left out; with `-d` or `--dir` the subdirectory is ranked first. -/
theorem main_dir_flag :
    processArgs String.toInt? [] = .ok ⟨1, false, []⟩ ∧
      processArgs String.toInt? ["-d"] = .ok ⟨1, true, []⟩ ∧
      processArgs String.toInt? ["--dir"] = .ok ⟨1, true, []⟩ ∧
      main String.toInt? (fun s => [s]) insertionSort (fsOf exampleTree) 8 ⟨[], []⟩
          (.ok []) [] = some (.ok [⟨"c", 30⟩]) ∧
      main String.toInt? (fun s => [s]) insertionSort (fsOf exampleTree) 8 ⟨[], []⟩
          (.ok []) ["-d"] = some (.ok [⟨"sub", 1000⟩]) ∧
      main String.toInt? (fun s => [s]) insertionSort (fsOf exampleTree) 8 ⟨[], []⟩
          (.ok []) ["--dir"] = some (.ok [⟨"sub", 1000⟩]) :=
  ⟨rfl, rfl, rfl, rfl, rfl, rfl⟩

/-- C4: the code can return fewer entries than the target has children. The target
lists the subdirectory `0sub` (tree size 1000) before the files `a`, `b`, `c` of 10, 20
and 30 bytes, all of which can be stat-ed. The main goroutine launches the goroutine of
`0sub` and reads `entries` for the append of `a`; the goroutine appends its entry under
the mutex and ends; the main goroutine assigns its own slice and goes on. `getByLargest`
returns the three file entries and the subdirectory is missing. -/
theorem listing_loses_subdirectory :
    (subFirstTree.children.map (fun c => (c.1, statable c, c.2.isRegular, c.2.isDir)))
        = [("0sub", true, false, true), ("a", true, true, false),
           ("b", true, true, false), ("c", true, true, false)] ∧
      getDirectorySizeIter (fsOf subFirstTree) 5 ["0sub"] = some 1000 ∧
      returnedEntries (runSchedule (fsOf subFirstTree) 5 []
        [0, 0, 1, 1, 1, 1, 1, 1, 0, 0, 0, 0, 0, 0, 0]
        (raceStart (subFirstTree.children.map toDirEntry)))
        = some [⟨"a", 10⟩, ⟨"b", 20⟩, ⟨"c", 30⟩] :=
  ⟨rfl, rfl, rfl⟩

/-- C7: the append of the listing loop is made without the mutex. For a listing that
gives the subdirectory `d` before the file `f`, the main goroutine reads `entries` for
its append, the goroutine of `d` then locks, appends, unlocks and signals the wait
group, and the main goroutine assigns its slice: `getByLargest` returns after every
goroutine has finished, with the entry of `f` alone, and one assignment to `entries` was
made by a goroutine that did not hold `mu`. -/
theorem unguarded_append_loses_entry :
    returnedEntries (runSchedule (fsOf raceTree) 3 [] [0, 0, 1, 1, 1, 1, 1, 1, 0, 0, 0]
        (raceStart (raceTree.children.map toDirEntry))) = some [⟨"f", 7⟩] ∧
      (runSchedule (fsOf raceTree) 3 [] [0, 0, 1, 1, 1, 1, 1, 1, 0, 0, 0]
        (raceStart (raceTree.children.map toDirEntry))).map
          (fun st => (st.tasks.map (fun g => (g.name, decide (g.pc = .finished))),
            st.wg, st.unguarded))
        = some ([("d", true)], 0, 1) ∧
      getDirectorySizeIter (fsOf raceTree) 3 ["d"] = some 5 :=
  ⟨rfl, rfl, rfl⟩

end Largest
